import Mathlib

/-!
# Sum-of-sales: a shallow embedding of `script.js`

The script decodes a `data:` URL, detects the delimiter of the CSV text in it,
parses the text into a header and rows, and sums one column.

## Modelling conventions

* A JavaScript string is a `List Char` (`Str`): a sequence of code points.  Every
  string operation the script uses (`split` on an ASCII separator, `trim`,
  `startsWith`, `endsWith`, `substring`, `replace`) acts on whole code points,
  so it behaves the same on code points as on UTF-16 code units.
* `null` is `none`; an exception thrown by a platform function is `none` of that
  function, and the `try`/`catch` around it is the `match` on the result.
* Platform functions (`atob`, `TextDecoder`, `decodeURIComponent`, `parseFloat`,
  `toFixed`, number addition) follow the standards that define them.
-/

set_option exponentiation.threshold 4096

namespace SumOfSales

/-- A JavaScript string, as the sequence of its code points. -/
abbrev Str := List Char

/-! ## String primitives of the platform -/

/-- The characters `String.prototype.trim` removes: ECMAScript `WhiteSpace` and
`LineTerminator`. -/
def isWhiteSpace (c : Char) : Bool :=
  let n := c.toNat
  n = 0x09 || n = 0x0A || n = 0x0B || n = 0x0C || n = 0x0D || n = 0x20 || n = 0xA0 ||
  n = 0x1680 || (0x2000 ≤ n && n ≤ 0x200A) || n = 0x2028 || n = 0x2029 || n = 0x202F ||
  n = 0x205F || n = 0x3000 || n = 0xFEFF

/-- The characters the regular expression `.` does not match: ECMAScript
`LineTerminator`. -/
def isLineTerminator (c : Char) : Bool :=
  let n := c.toNat
  n = 0x0A || n = 0x0D || n = 0x2028 || n = 0x2029

/-- Leading white space removed (`trimStart`). -/
def trimStart (s : Str) : Str := s.dropWhile isWhiteSpace

/-- Trailing white space removed (`trimEnd`). -/
def trimEnd (s : Str) : Str := (s.reverse.dropWhile isWhiteSpace).reverse

/-- The method `String.prototype.trim`. -/
def trim (s : Str) : Str := trimEnd (trimStart s)

/-- Put a character in front of the first piece of a split. -/
def consHead (c : Char) : List Str → List Str
  | [] => [[c]]
  | p :: ps => (c :: p) :: ps

/-- The call `s.split(sep)` for a one-character separator `sep`. -/
def split (sep : Char) : Str → List Str
  | [] => [[]]
  | c :: cs => if c = sep then [] :: split sep cs else consHead c (split sep cs)

/-- The call `s.split(/\r?\n/)`: the text is cut at every `\r\n` and at every
other `\n`; a `\r` not followed by `\n` stays in its piece. -/
def splitLines : Str → List Str
  | [] => [[]]
  | [c] => if c = '\n' then [[], []] else [[c]]
  | c :: d :: cs =>
    if c = '\n' then [] :: splitLines (d :: cs)
    else if c = '\r' ∧ d = '\n' then [] :: splitLines cs
    else consHead c (splitLines (d :: cs))

/-- The predicate `line => line.trim() !== ''`. -/
def nonBlank (line : Str) : Bool := !(trim line).isEmpty

/-! ## `detectDelimiter` -/

/-- The array `delimiters` of `detectDelimiter`; also the key order of `scores`. -/
def delimiters : List Char := [',', ';', '\t']

/-- The value of `scores[delimiter]` once the two `forEach` loops are done:
`line.split(delimiter).length - 1` added up over `lines.slice(0, 3)`. -/
def score (lines : List Str) (delimiter : Char) : Nat :=
  (lines.take 3).foldl (fun acc line => acc + ((split delimiter line).length - 1)) 0

/-- The call `keys.reduce((a, b) => scores[a] > scores[b] ? a : b)` without an
initial value, on a key list `k :: ks`. -/
def reduceKeys (scores : Char → Nat) (k : Char) (ks : List Char) : Char :=
  ks.foldl (fun a b => if scores a > scores b then a else b) k

/-- The non-blank lines `detectDelimiter` works on. -/
def sampleLines (csvText : Str) : List Str := (splitLines csvText).filter nonBlank

/-- The function `detectDelimiter` of `script.js`. -/
def detectDelimiter (csvText : Str) : Char :=
  let lines := sampleLines csvText
  if lines.length = 0 then ','
  else reduceKeys (score lines) ',' [';', '\t']

/-! ## Numbers of the platform -/

/-- A JavaScript Number: not-a-number, an infinity, or the finite value
`(-1)^neg * m * 2^e`.  Finite values are kept in the binary64 layout: `e = -1074`
with `m < 2^52` (zero and subnormals), or `2^52 ≤ m < 2^53` with
`-1074 ≤ e ≤ 971`. -/
inductive Num where
  | nan
  | inf (neg : Bool)
  | fin (neg : Bool) (m : Nat) (e : Int)
  deriving DecidableEq

/-- The global function `isNaN` on a Number. -/
def Num.isNaN : Num → Bool
  | .nan => true
  | _ => false

/-- The fraction `n / (d * 2^e)` as a numerator and a denominator. -/
def scaleDiv (n d : Nat) (e : Int) : Nat × Nat :=
  if 0 ≤ e then (n, d * 2 ^ e.toNat) else (n * 2 ^ (-e).toNat, d)

/-- The integer nearest to `n / d`, a tie going to the even one. -/
def roundHalfEven (n d : Nat) : Nat :=
  let q := n / d
  let r := n % d
  if 2 * r < d then q else if d < 2 * r then q + 1 else if q % 2 = 0 then q else q + 1

/-- The number of binary digits of `n`, counted by halving at most `fuel` times. -/
def bitLength : Nat → Nat → Nat
  | 0, _ => 0
  | fuel + 1, n => if n = 0 then 0 else bitLength fuel (n / 2) + 1

/-- The position of the leading binary digit of `n`: the floor of its base-2
logarithm (`0` for `n = 0`). -/
def floorLog2 (n : Nat) : Nat := bitLength n n - 1

/-- The binary exponent of the double nearest to `n / d` (for `n, d > 0`): the
`e ≥ -1074` with `2^52 ≤ n / (d * 2^e) < 2^53`, or `-1074` in the subnormal range. -/
def binExp (n d : Nat) : Int :=
  let e0 : Int := (floorLog2 n : Int) - (floorLog2 d : Int) - 52
  let ab := scaleDiv n d e0
  let e1 := if ab.1 / ab.2 < 2 ^ 52 then e0 - 1 else e0
  max e1 (-1074)

/-- The double nearest to `(-1)^neg * n / d` under round-to-nearest, ties-to-even
(the rounding of IEEE 754 that ECMAScript prescribes for Number values). -/
def roundToDouble (neg : Bool) (n d : Nat) : Num :=
  if n = 0 then .fin neg 0 (-1074)
  else
    let e := binExp n d
    let ab := scaleDiv n d e
    let m := roundHalfEven ab.1 ab.2
    let m1 := if m = 2 ^ 53 then 2 ^ 52 else m
    let e1 := if m = 2 ^ 53 then e + 1 else e
    if 971 < e1 then .inf neg else .fin neg m1 e1

/-- A finite value as an integer multiple of `2^e0`, for `e0 ≤ e`. -/
def signedAt (neg : Bool) (m : Nat) (e e0 : Int) : Int :=
  (if neg then -1 else 1) * ((m * 2 ^ (e - e0).toNat : Nat) : Int)

/-- The operator `+` on Numbers (`Number::add`). -/
def Num.add : Num → Num → Num
  | .nan, _ => .nan
  | _, .nan => .nan
  | .inf a, .inf b => if a = b then .inf a else .nan
  | .inf a, .fin _ _ _ => .inf a
  | .fin _ _ _, .inf b => .inf b
  | .fin a m e, .fin b m' e' =>
    let e0 := min e e'
    let s := signedAt a m e e0 + signedAt b m' e' e0
    if s = 0 then .fin (a && b) 0 (-1074)
    else
      let nd := scaleDiv s.natAbs 1 (-e0)
      roundToDouble (decide (s < 0)) nd.1 nd.2

/-- Is the character a decimal digit. -/
def isDigit (c : Char) : Bool := 48 ≤ c.toNat && c.toNat ≤ 57

/-- The number a run of decimal digits denotes. -/
def digitsVal (ds : Str) : Nat := ds.foldl (fun acc c => 10 * acc + (c.toNat - 48)) 0

/-- The value of a run of digits at the head of `s`, `0` when there is none. -/
def leadingDigitsVal (s : Str) : Nat := digitsVal (s.takeWhile isDigit)

/-- The `ExponentPart` at the head of `s`, when there is one: `e` or `E`, an
optional sign, and at least one digit.  Its value, else `0`. -/
def exponentPart (s : Str) : Int :=
  match s with
  | [] => 0
  | c :: rest =>
    if c = 'e' ∨ c = 'E' then
      if rest.head? = some '+' then (leadingDigitsVal (rest.drop 1) : Int)
      else if rest.head? = some '-' then -(leadingDigitsVal (rest.drop 1) : Int)
      else (leadingDigitsVal rest : Int)
    else 0

/-- The fraction `n * 10^k` as a numerator and a denominator. -/
def scaleTen (n : Nat) (k : Int) : Nat × Nat :=
  if 0 ≤ k then (n * 10 ^ k.toNat, 1) else (n, 10 ^ (-k).toNat)

/-- The value of the longest prefix of `s` that is a `StrUnsignedDecimalLiteral`,
with the sign `neg`; `NaN` when no prefix is one. -/
def unsignedLiteral (neg : Bool) (s : Str) : Num :=
  if "Infinity".toList.isPrefixOf s then .inf neg
  else
    let ip := s.takeWhile isDigit
    let r1 := s.dropWhile isDigit
    if r1.head? = some '.' then
      let fp := (r1.drop 1).takeWhile isDigit
      let r3 := (r1.drop 1).dropWhile isDigit
      if ip.isEmpty && fp.isEmpty then .nan
      else
        let nd := scaleTen (digitsVal (ip ++ fp)) (exponentPart r3 - fp.length)
        roundToDouble neg nd.1 nd.2
    else if ip.isEmpty then .nan
    else
      let nd := scaleTen (digitsVal ip) (exponentPart r1)
      roundToDouble neg nd.1 nd.2

/-- The global function `parseFloat` on a string: leading white space is
skipped, an optional sign is read, and the longest prefix that is a
`StrDecimalLiteral` gives the value; `NaN` when there is none. -/
def parseFloat (s : Str) : Num :=
  let t := trimStart s
  if t.head? = some '+' then unsignedLiteral false (t.drop 1)
  else if t.head? = some '-' then unsignedLiteral true (t.drop 1)
  else unsignedLiteral false t

/-- The decimal digits of a natural number. -/
def decimal (n : Nat) : Str := Nat.toDigits 10 n

/-- The exponential notation `Number::toString` uses for the integer `v ≥ 10^21`
whose significant digits are those of `v` without its trailing zeros. -/
def expNotation (v : Nat) : Str :=
  let ds := decimal v
  let sig := (ds.reverse.dropWhile (fun c => c = '0')).reverse
  let frac := sig.drop 1
  sig.take 1 ++ (if frac.isEmpty then [] else '.' :: frac) ++ "e+".toList ++ decimal (ds.length - 1)

/-- The decimal with `k` significant digits that `Number::toString` picks for the
double `x` of integer value `big`, when one reads back as `x`: of `big` cut to
`k` digits and the next such decimal, the one that reads back as `x`, the nearer
to `big` when both do. -/
def shortestAt (x : Num) (big k : Nat) : Option Nat :=
  let unit := 10 ^ ((decimal big).length - k)
  let lo := big / unit * unit
  let hi := lo + unit
  let okLo := decide (roundToDouble false lo 1 = x)
  let okHi := decide (roundToDouble false hi 1 = x)
  if okLo && okHi then (if big - lo ≤ hi - big then some lo else some hi)
  else if okLo then some lo
  else if okHi then some hi
  else none

/-- The first `k` from `k` on, in at most `fuel` tries, with a `k`-digit decimal
that reads back as `x`. -/
def shortestFrom (x : Num) (big : Nat) : Nat → Nat → Nat
  | 0, _ => big
  | fuel + 1, k =>
    match shortestAt x big k with
    | some v => v
    | none => shortestFrom x big fuel (k + 1)

/-- The method `toFixed(2)` of a Number (`Number.prototype.toFixed` with two
fraction digits). -/
def toFixed2 : Num → Str
  | .nan => "NaN".toList
  | .inf false => "Infinity".toList
  | .inf true => "-Infinity".toList
  | .fin neg m e =>
    let sign : Str := if neg && decide (m ≠ 0) then ['-'] else []
    let nd := scaleDiv m 1 (-e)
    if 10 ^ 21 * nd.2 ≤ nd.1 then
      sign ++ expNotation (shortestFrom (.fin false m e) (nd.1 / nd.2) 17 1)
    else
      let n := (2 * 100 * nd.1 + nd.2) / (2 * nd.2)
      let ds := decimal n
      let padded := List.replicate (3 - ds.length) '0' ++ ds
      sign ++ padded.take (padded.length - 2) ++ ['.'] ++ padded.drop (padded.length - 2)

/-! ## Decoders of the platform -/

/-- The characters forgiving-base64 decoding removes first: ASCII white space. -/
def isAsciiWhitespace (c : Char) : Bool :=
  let n := c.toNat
  n = 0x09 || n = 0x0A || n = 0x0C || n = 0x0D || n = 0x20

/-- The six-bit value of a character of the base64 alphabet. -/
def base64Value (c : Char) : Option Nat :=
  let n := c.toNat
  if 65 ≤ n ∧ n ≤ 90 then some (n - 65)
  else if 97 ≤ n ∧ n ≤ 122 then some (n - 71)
  else if 48 ≤ n ∧ n ≤ 57 then some (n + 4)
  else if n = 43 then some 62
  else if n = 47 then some 63
  else none

/-- The six-bit values of a string, when every character is in the alphabet. -/
def base64Values : Str → Option (List Nat)
  | [] => some []
  | c :: cs =>
    match base64Value c, base64Values cs with
    | some v, some vs => some (v :: vs)
    | _, _ => none

/-- One or two trailing `=` removed. -/
def stripPadding (data : Str) : Str :=
  match data.reverse with
  | a :: b :: rest =>
    if a = '=' ∧ b = '=' then rest.reverse
    else if a = '=' then (b :: rest).reverse
    else data
  | [a] => if a = '=' then [] else data
  | [] => data

/-- The bytes a run of six-bit values holds: three per four values, and one or
two for a rest of two or three values, the spare bits dropped. -/
def sextetsToBytes : List Nat → List Nat
  | a :: b :: c :: d :: rest =>
    let n := ((a * 64 + b) * 64 + c) * 64 + d
    (n / 65536) :: (n / 256 % 256) :: (n % 256) :: sextetsToBytes rest
  | [a, b, c] =>
    let n := ((a * 64 + b) * 64 + c) / 4
    [n / 256, n % 256]
  | [a, b] => [(a * 64 + b) / 16]
  | _ => []

/-- The global function `atob` (forgiving-base64 decode): the binary string, or
`none` where `atob` throws. -/
def atob (data : Str) : Option Str :=
  let d1 := data.filter (fun c => !isAsciiWhitespace c)
  let d2 := if d1.length % 4 = 0 then stripPadding d1 else d1
  if d2.length % 4 = 1 then none
  else
    match base64Values d2 with
    | none => none
    | some vs => some ((sextetsToBytes vs).map Char.ofNat)

/-- The replacement character U+FFFD. -/
def replacementChar : Char := Char.ofNat 0xFFFD

/-- The UTF-8 decoder at a byte that starts a sequence: the code point it emits,
if any, and the state after it (bytes still needed, code point so far, lower
and upper bound of the next byte). -/
def utf8Lead (b : Nat) : Str × (Nat × Nat × Nat × Nat) :=
  if b ≤ 0x7F then ([Char.ofNat b], (0, 0, 0x80, 0xBF))
  else if 0xC2 ≤ b ∧ b ≤ 0xDF then ([], (1, b % 32, 0x80, 0xBF))
  else if 0xE0 ≤ b ∧ b ≤ 0xEF then
    ([], (2, b % 16, if b = 0xE0 then 0xA0 else 0x80, if b = 0xED then 0x9F else 0xBF))
  else if 0xF0 ≤ b ∧ b ≤ 0xF4 then
    ([], (3, b % 8, if b = 0xF0 then 0x90 else 0x80, if b = 0xF4 then 0x8F else 0xBF))
  else ([replacementChar], (0, 0, 0x80, 0xBF))

/-- The UTF-8 decoder of the Encoding standard in replacement mode, from the
state `(needed, cp, lower, upper)`: a byte outside the bounds gives U+FFFD and is
read again as the start of a sequence; an unfinished sequence at the end gives
U+FFFD. -/
def utf8Run : Nat × Nat × Nat × Nat → List Nat → Str
  | (needed, _, _, _), [] => if needed = 0 then [] else [replacementChar]
  | (0, _, _, _), b :: bs => (utf8Lead b).1 ++ utf8Run (utf8Lead b).2 bs
  | (needed + 1, cp, lower, upper), b :: bs =>
    if b < lower ∨ upper < b then
      replacementChar :: ((utf8Lead b).1 ++ utf8Run (utf8Lead b).2 bs)
    else if needed = 0 then Char.ofNat (cp * 64 + b % 64) :: utf8Run (0, 0, 0x80, 0xBF) bs
    else utf8Run (needed, cp * 64 + b % 64, 0x80, 0xBF) bs

/-- The call `new TextDecoder().decode(bytes)`: UTF-8, not fatal, a leading
byte-order mark dropped. -/
def textDecode (bytes : List Nat) : Str :=
  match bytes with
  | 0xEF :: 0xBB :: 0xBF :: rest => utf8Run (0, 0, 0x80, 0xBF) rest
  | _ => utf8Run (0, 0, 0x80, 0xBF) bytes

/-- The value of a hexadecimal digit. -/
def hexVal (c : Char) : Option Nat :=
  let n := c.toNat
  if 48 ≤ n ∧ n ≤ 57 then some (n - 48)
  else if 65 ≤ n ∧ n ≤ 70 then some (n - 55)
  else if 97 ≤ n ∧ n ≤ 102 then some (n - 87)
  else none

/-- One escape `%XX` at the head of a string: its byte and the rest. -/
def readEscape : Str → Option (Nat × Str)
  | p :: h :: l :: rest =>
    if p = '%' then
      match hexVal h, hexVal l with
      | some a, some b => some (16 * a + b, rest)
      | _, _ => none
    else none
  | _ => none

/-- Exactly `n` escapes at the head of a string: their bytes and the rest. -/
def readEscapes : Nat → Str → Option (List Nat × Str)
  | 0, s => some ([], s)
  | n + 1, s =>
    match readEscape s with
    | none => none
    | some (b, rest) =>
      match readEscapes n rest with
      | none => none
      | some (bs, r) => some (b :: bs, r)

/-- The code point a well-formed UTF-8 sequence of two to four octets encodes. -/
def utf8Octets : List Nat → Option Char
  | [a, b] =>
    if 0xC2 ≤ a ∧ a ≤ 0xDF ∧ 0x80 ≤ b ∧ b ≤ 0xBF then some (Char.ofNat (a % 32 * 64 + b % 64))
    else none
  | [a, b, c] =>
    if 0xE0 ≤ a ∧ a ≤ 0xEF ∧ (if a = 0xE0 then 0xA0 else 0x80) ≤ b ∧
        b ≤ (if a = 0xED then 0x9F else 0xBF) ∧ 0x80 ≤ c ∧ c ≤ 0xBF then
      some (Char.ofNat ((a % 16 * 64 + b % 64) * 64 + c % 64))
    else none
  | [a, b, c, d] =>
    if 0xF0 ≤ a ∧ a ≤ 0xF4 ∧ (if a = 0xF0 then 0x90 else 0x80) ≤ b ∧
        b ≤ (if a = 0xF4 then 0x8F else 0xBF) ∧ 0x80 ≤ c ∧ c ≤ 0xBF ∧ 0x80 ≤ d ∧ d ≤ 0xBF then
      some (Char.ofNat (((a % 8 * 64 + b % 64) * 64 + c % 64) * 64 + d % 64))
    else none
  | _ => none

/-- The number of leading one bits of a byte, `5` standing for five or more. -/
def leadingOnes (b : Nat) : Nat :=
  if b < 0x80 then 0 else if b < 0xC0 then 1 else if b < 0xE0 then 2
  else if b < 0xF0 then 3 else if b < 0xF8 then 4 else 5

/-- The loop of the abstract operation `Decode` with an empty reserved set; every
round consumes at least one character, so `fuel` at least the length of the
string never runs out. -/
def decodeLoop : Nat → Str → Option Str
  | _, [] => some []
  | 0, _ :: _ => none
  | fuel + 1, c :: cs =>
    if c ≠ '%' then (decodeLoop fuel cs).map (c :: ·)
    else
      match readEscape (c :: cs) with
      | none => none
      | some (b, rest) =>
        let n := leadingOnes b
        if n = 0 then (decodeLoop fuel rest).map (Char.ofNat b :: ·)
        else if n = 1 ∨ 4 < n then none
        else
          match readEscapes (n - 1) rest with
          | none => none
          | some (bs, rest1) =>
            match utf8Octets (b :: bs) with
            | none => none
            | some ch => (decodeLoop fuel rest1).map (ch :: ·)

/-- The global function `decodeURIComponent`: the decoded string, or `none`
where it throws a `URIError`. -/
def decodeURIComponent (s : Str) : Option Str := decodeLoop s.length s

/-! ## `parseDataUrl` -/

/-- The value `{ mime, isBase64, text }` that `parseDataUrl` returns. -/
structure DecodedPayload where
  mime : Str
  isBase64 : Bool
  text : Str
  deriving DecidableEq

/-- The end `,(.*)$` of the pattern at a position: a comma, then the rest of the
input, which `.` matches only without a line terminator. -/
def matchPayload : Str → Option Str
  | [] => none
  | c :: p => if c = ',' ∧ p.all (fun x => !isLineTerminator x) then some p else none

/-- The part `(;base64)?,(.*)$` of the pattern at a position: the optional group
is tried first with `;base64`, then empty. -/
def matchTail (s : Str) : Option (Bool × Str) :=
  let viaMarker :=
    if ";base64".toList.isPrefixOf s then matchPayload (s.drop 7) else none
  match viaMarker with
  | some p => some (true, p)
  | none =>
    match matchPayload s with
    | some p => some (false, p)
    | none => none

/-- The part `[^;]*` followed by `(;base64)?,(.*)$` at a position, by greedy
backtracking: one more character other than `;` is taken when the rest then
matches, else the class stops here. -/
def matchClassStar : Str → Option (Str × Bool × Str)
  | [] => (matchTail []).map (fun bp => ([], bp.1, bp.2))
  | c :: cs =>
    let longer := if c ≠ ';' then matchClassStar cs else none
    match longer with
    | some (m, b, p) => some (c :: m, b, p)
    | none => (matchTail (c :: cs)).map (fun bp => ([], bp.1, bp.2))

/-- The call `url.match(/^data:([^;]+)(;base64)?,(.*)$/)`: the groups 1, 2 (as
"did it take part") and 3, or `none` for `null`. -/
def dataUrlMatch (url : Str) : Option (Str × Bool × Str) :=
  if "data:".toList.isPrefixOf url then
    match url.drop 5 with
    | [] => none
    | c :: cs =>
      if c ≠ ';' then
        match matchClassStar cs with
        | some (m, b, p) => some (c :: m, b, p)
        | none => none
      else none
  else none

/-- The function `parseDataUrl` of `script.js`. -/
def parseDataUrl (url : Str) : Option DecodedPayload :=
  if !"data:".toList.isPrefixOf url then none
  else
    match dataUrlMatch url with
    | none => none
    | some (mime, isBase64, payload) =>
      if isBase64 then
        match atob payload with
        | none => none
        | some binary => some ⟨mime, isBase64, textDecode (binary.map (fun c => c.toNat % 256))⟩
      else
        match decodeURIComponent payload with
        | none => none
        | some text => some ⟨mime, isBase64, text⟩

/-! ## `parseCsv` -/

/-- The value `{ headers, rows }` that `parseCsv` returns; `headers` is `none`
for `null`. -/
structure ParsedTable where
  headers : Option (List Str)
  rows : List (List Str)
  deriving DecidableEq

/-- The call `text.replace(/\r\n/g, '\n')`. -/
def replaceCRLF : Str → Str
  | [] => []
  | [c] => [c]
  | c :: d :: cs =>
    if c = '\r' ∧ d = '\n' then '\n' :: replaceCRLF cs else c :: replaceCRLF (d :: cs)

/-- The call `text.replace(/\r/g, '\n')`. -/
def replaceCR (s : Str) : Str := s.map (fun c => if c = '\r' then '\n' else c)

/-- The statement `if (text.charCodeAt(0) === 0xFEFF) text = text.slice(1)`. -/
def stripBOM (text : Str) : Str :=
  match text with
  | [] => []
  | c :: cs => if c.toNat = 0xFEFF then cs else c :: cs

/-- The call `s.replace(/""/g, '"')`. -/
def unescapeQuotes : Str → Str
  | [] => []
  | [c] => [c]
  | c :: d :: cs =>
    if c = '"' ∧ d = '"' then '"' :: unescapeQuotes cs else c :: unescapeQuotes (d :: cs)

/-- The method `substring(start, end)`: both arguments are clamped to the
string, and swapped when the first is the larger. -/
def substring (s : Str) (start stop : Int) : Str :=
  let a := min start.toNat s.length
  let b := min stop.toNat s.length
  (s.drop (min a b)).take (max a b - min a b)

/-- The callback of `lines[i].split(delimiter).map(...)` in `parseCsv`. -/
def cellTransform (cell : Str) : Str :=
  if ['"'].isPrefixOf cell && ['"'].isSuffixOf cell then
    unescapeQuotes (substring cell 1 ((cell.length : Int) - 1))
  else trim cell

/-- The text `parseCsv` works on: line endings normalised, a leading BOM removed. -/
def prepare (text : Str) : Str := stripBOM (replaceCR (replaceCRLF text))

/-- The rows the `for` loop of `parseCsv` pushes, for the lines from `startIndex`
on. -/
def collectRows (delimiter : Char) (lines : List Str) : List (List Str) :=
  lines.foldl
    (fun rows line =>
      if (trim line).isEmpty then rows else rows ++ [(split delimiter line).map cellTransform])
    []

/-- The function `parseCsv` of `script.js`. -/
def parseCsv (text : Str) : ParsedTable :=
  let text := prepare text
  let delimiter := detectDelimiter text
  let lines := (split '\n' text).filter nonBlank
  match lines with
  | [] => ⟨some [], []⟩
  | first :: _ =>
    let firstRow := split delimiter first
    let isHeader := firstRow.any (fun cell => (parseFloat cell).isNaN)
    let headers := if isHeader then some (firstRow.map trim) else none
    let startIndex := if isHeader then 1 else 0
    ⟨headers, collectRows delimiter (lines.drop startIndex)⟩

/-! ## `init` -/

/-- The method `toLowerCase`, on the letters A to Z.  No other character
lower-cases to one of the letters of `sales`, so the comparison with `'sales'`
in `init` is not affected by the rest of the Unicode case mapping. -/
def toLowerCase (s : Str) : Str := s.map Char.toLower

/-- The method `findIndex`: the first index whose element satisfies `p`, `none`
standing for `-1`. -/
def findIndex (p : Str → Bool) : List Str → Option Nat
  | [] => none
  | h :: hs => if p h then some 0 else (findIndex p hs).map (· + 1)

/-- The value of `salesColumnIndex` in `init`, `none` standing for `-1`. -/
def salesColumnIndex (headers : Option (List Str)) : Option Nat :=
  match headers with
  | some hs => findIndex (fun h => toLowerCase h = "sales".toList) hs
  | none => some 1

/-- The value of `totalSales` after the `rows.forEach` of `init`; a row without
a cell at the index gives `parseFloat(undefined)`. -/
def totalSales (rows : List (List Str)) (idx : Nat) : Num :=
  rows.foldl
    (fun total row =>
      let salesValue := parseFloat (row.getD idx "undefined".toList)
      if !salesValue.isNaN then total.add salesValue else total)
    (.fin false 0 (-1074))

/-- The text `init` writes to the display target for a parsed table. -/
def display (t : ParsedTable) : Str :=
  match salesColumnIndex t.headers with
  | none => "Error".toList
  | some idx => toFixed2 (totalSales t.rows idx)

/-- The array `attachments` of `init`: name and URL. -/
def attachments : List (Str × Str) :=
  [("data.csv".toList,
    "data:text/csv;base64,aXRlbSxzYWxlcwpBcHBsZXMsMTIwLjUwCkJhbmFuYXMsODUuNzUKT3JhbmdlcywxNTAuMjUKR3JhcGVzLDk5LjAwCk1hbmdvZXMsMTMwLjQwCg==".toList)]

/-- The text that running the `try` block of `init` on an attachment list
leaves in the display target. -/
def initWith (atts : List (Str × Str)) : Str :=
  match atts.find? (fun att => att.1 = "data.csv".toList) with
  | none => "Error".toList
  | some csvAttachment =>
    match parseDataUrl csvAttachment.2 with
    | none => "Error".toList
    | some parsedData =>
      if parsedData.text.isEmpty then "Error".toList
      else display (parseCsv parsedData.text)

/-- The function `init` of `script.js`, as the text it leaves in the display
target. -/
def init : Str := initWith attachments

/-! ## The specification's vocabulary -/

/-- The number of occurrences of `c` in the first three of `lines`, added up. -/
def occurrences (lines : List Str) (c : Char) : Nat :=
  ((lines.take 3).map (fun line => line.count c)).sum

/-- The cell transform in the words of the specification, for a cell of at least
two characters: a cell that starts and ends with a double quote loses one
leading and one trailing quote and has every two consecutive quotes replaced by
one; any other cell is trimmed. -/
def unquoteOrTrim (cell : Str) : Str :=
  if 2 ≤ cell.length ∧ cell.head? = some '"' ∧ cell.getLast? = some '"' then
    unescapeQuotes (cell.drop 1).dropLast
  else trim cell

/-- The call `cells.join(sep)` for a one-character separator. -/
def joinWith (sep : Char) : List Str → Str
  | [] => []
  | [x] => x
  | x :: y :: rest => x ++ sep :: joinWith sep (y :: rest)

/-- A table written back as text: the header line when headers are present, then
one line per row, cells joined by `delimiter` and lines joined by `\n`. -/
def serialize (delimiter : Char) (t : ParsedTable) : Str :=
  let headerLine : List Str :=
    match t.headers with
    | some hs => [joinWith delimiter hs]
    | none => []
  joinWith '\n' (headerLine ++ t.rows.map (joinWith delimiter))

/-- A line written back: its cells trimmed and joined by `delimiter`. -/
def rewriteLine (delimiter : Char) (line : Str) : Str :=
  joinWith delimiter ((split delimiter line).map trim)

/-- Does the string start like a `StrUnsignedDecimalLiteral`: with `Infinity`,
with a digit, or with a dot and a digit. -/
def startsUnsigned (s : Str) : Bool :=
  "Infinity".toList.isPrefixOf s || s.head?.any isDigit ||
    (s.head? == some '.' && (s.drop 1).head?.any isDigit)

/-- Does the string start like a `StrDecimalLiteral`: an optional sign, then the
start of a `StrUnsignedDecimalLiteral`. -/
def startsLiteral (s : Str) : Bool :=
  if s.head? = some '+' ∨ s.head? = some '-' then startsUnsigned (s.drop 1) else startsUnsigned s

/-- The text with every `\r\n` and every remaining `\r` replaced by `\n`: the first
statement of `parseCsv`. -/
def normalizeLineEndings (text : Str) : Str := replaceCR (replaceCRLF text)

/-- The byte-order mark U+FEFF. -/
def bom : Char := Char.ofNat 0xFEFF

/-- The call `lines.join(sep)` for a separator of any length. -/
def joinText (sep : Str) : List Str → Str
  | [] => []
  | [x] => x
  | x :: y :: rest => x ++ sep ++ joinText sep (y :: rest)

/-- The string neither starts nor ends with a white-space character. -/
def noEdgeWhiteSpace (s : Str) : Prop :=
  (∀ c, s.head? = some c → isWhiteSpace c = false) ∧
  (∀ c, s.getLast? = some c → isWhiteSpace c = false)

/-- The test `cell.startsWith('"') && cell.endsWith('"')` of the cell transform. -/
def isQuoted (cell : Str) : Bool := ['"'].isPrefixOf cell && ['"'].isSuffixOf cell

/-- Does the string start with two hexadecimal digits. -/
def twoHexAhead (s : Str) : Bool :=
  match s with
  | h :: l :: _ => (hexVal h).isSome && (hexVal l).isSome
  | _ => false

/-- Are two strings equal when letter case is ignored. -/
def equalsIgnoreCase (a b : Str) : Bool := decide (toLowerCase a = toLowerCase b)

/-- The number a row contributes to the total of the column `idx`: the value of
its cell at that index when the row has one and it parses as a number. -/
def parsedAt (idx : Nat) (row : List Str) : Option Num :=
  match row.get? idx with
  | none => none
  | some cell => if (parseFloat cell).isNaN then none else some (parseFloat cell)

/-- The Number zero that `totalSales` starts from. -/
def zero : Num := .fin false 0 (-1074)

/-- The sum of a list of Numbers, added from the left as the loop of `init` does. -/
def sumOf (values : List Num) : Num := values.foldl Num.add zero

/-- The Number is finite and its magnitude is below `bound`. -/
def finiteBelow (x : Num) (bound : Nat) : Prop :=
  match x with
  | .fin _ m e => if 0 ≤ e then m * 2 ^ e.toNat < bound else m < bound * 2 ^ (-e).toNat
  | _ => False

/-- The string is a decimal with exactly two digits after the decimal point: an
optional minus sign, one or more digits, a point, two digits. -/
def twoDecimals (s : Str) : Prop :=
  ∃ sign ip fp : Str, s = sign ++ ip ++ '.' :: fp ∧ (sign = [] ∨ sign = ['-']) ∧
    ip ≠ [] ∧ fp.length = 2 ∧ ∀ c ∈ ip ++ fp, isDigit c = true

/-- The payload as `atob` reads it: ASCII white space removed, then, when the
length is divisible by 4, one or two trailing `=` removed. -/
def base64Body (data : Str) : Str :=
  if (data.filter (fun c => !isAsciiWhitespace c)).length % 4 = 0 then
    stripPadding (data.filter (fun c => !isAsciiWhitespace c))
  else data.filter (fun c => !isAsciiWhitespace c)

/-- The two ways forgiving-base64 decoding fails: what is left of the payload has
a length of 1 modulo 4, or holds a character outside the base64 alphabet. -/
def atobRejects (data : Str) : Prop :=
  (base64Body data).length % 4 = 1 ∨ ∃ c ∈ base64Body data, base64Value c = none

/-- The bits of the last character that the padding leaves unused are zero: four
bits before `==`, two bits before `=`. -/
def zeroPadBits (data : Str) : Bool :=
  match (stripPadding data).getLast? with
  | none => true
  | some c =>
    match base64Value c with
    | none => true
    | some v =>
      if data.length = (stripPadding data).length + 2 then v % 16 == 0
      else if data.length = (stripPadding data).length + 1 then v % 4 == 0
      else true

/-- Well-formed standard base64 (RFC 4648, section 4, canonical form): a length
divisible by 4, characters of the alphabet only, closed by no, one or two `=`,
the unused bits before the padding being zero. -/
def wellFormedBase64 (data : Str) : Bool :=
  data.length % 4 == 0 && (stripPadding data).all (fun c => (base64Value c).isSome) &&
    zeroPadBits data

/-! ## The binary logarithm -/

theorem bitLength_of_le (fuel n : Nat) (h : n ≤ fuel) :
    bitLength fuel n = if n = 0 then 0 else Nat.log2 n + 1 := by
  induction fuel generalizing n with
  | zero =>
    have : n = 0 := by omega
    simp [bitLength, this]
  | succ f ih =>
    rw [bitLength]
    by_cases h0 : n = 0
    · simp [h0]
    · rw [if_neg h0, if_neg h0, ih (n / 2) (by omega)]
      by_cases h1 : n / 2 = 0
      · have hn : n = 1 := by omega
        subst hn
        simp [Nat.log2]
      · rw [if_neg h1]
        have h2 : 2 ≤ n := by omega
        conv_rhs => rw [Nat.log2, if_pos h2]

theorem floorLog2_eq_log2 (n : Nat) : floorLog2 n = Nat.log2 n := by
  unfold floorLog2
  rw [bitLength_of_le n n (Nat.le_refl n)]
  by_cases h0 : n = 0
  · subst h0
    simp [Nat.log2]
  · simp [h0]

/-! ## Lemmas on splitting -/

theorem split_ne_nil (sep : Char) (s : Str) : split sep s ≠ [] := by
  cases s with
  | nil => simp [split]
  | cons c cs =>
    by_cases h : c = sep
    · simp [split, h]
    · cases hs : split sep cs <;> simp [split, h, hs, consHead]

theorem length_consHead (c : Char) (l : List Str) (h : l ≠ []) :
    (consHead c l).length = l.length := by
  cases l with
  | nil => exact absurd rfl h
  | cons p ps => rfl

theorem length_split (sep : Char) (s : Str) : (split sep s).length = s.count sep + 1 := by
  induction s with
  | nil => simp [split]
  | cons c cs ih =>
    by_cases h : c = sep
    · subst h
      simp [split, ih]
    · have hne : (c == sep) = false := by simpa using h
      rw [split, if_neg h, length_consHead _ _ (split_ne_nil sep cs), ih,
        List.count_cons, hne]
      simp

theorem foldl_add_eq_sum {α : Type} (f : α → Nat) (l : List α) (a : Nat) :
    l.foldl (fun acc x => acc + f x) a = a + (l.map f).sum := by
  induction l generalizing a with
  | nil => simp
  | cons x xs ih => simp [ih, Nat.add_assoc]

theorem score_eq_occurrences (lines : List Str) (c : Char) :
    score lines c = occurrences lines c := by
  unfold score occurrences
  rw [foldl_add_eq_sum]
  simp [length_split]

theorem mem_delimiters (c : Char) : c ∈ delimiters ↔ c = ',' ∨ c = ';' ∨ c = '\t' := by
  simp [delimiters]

theorem detectDelimiter_of_lines (text : Str) (h : sampleLines text ≠ []) :
    detectDelimiter text = reduceKeys (score (sampleLines text)) ',' [';', '\t'] := by
  unfold detectDelimiter
  have : (sampleLines text).length ≠ 0 := by simpa using h
  simp [this]

/-- C1 (as amended): with at least one non-blank line, `detectDelimiter` returns
a candidate of highest score, and every candidate with that same score stands
at or before it in the order `,`, `;`, tab: among tied candidates the last one
wins. -/
theorem detectDelimiter_last_of_tied (text : Str) (h : sampleLines text ≠ []) :
    detectDelimiter text ∈ delimiters ∧
    (∀ c ∈ delimiters,
      score (sampleLines text) c ≤ score (sampleLines text) (detectDelimiter text)) ∧
    (∀ c ∈ delimiters,
      score (sampleLines text) c = score (sampleLines text) (detectDelimiter text) →
      delimiters.indexOf c ≤ delimiters.indexOf (detectDelimiter text)) := by
  rw [detectDelimiter_of_lines text h]
  generalize score (sampleLines text) = sc
  simp only [reduceKeys, List.foldl_cons, List.foldl_nil]
  refine ⟨?_, ?_, ?_⟩
  · split_ifs <;> simp [delimiters]
  · intro c hc
    rcases (mem_delimiters c).1 hc with rfl | rfl | rfl <;> split_ifs <;> omega
  · intro c hc
    rcases (mem_delimiters c).1 hc with rfl | rfl | rfl <;> split_ifs <;> intro heq <;>
      first
        | (exfalso; omega)
        | decide

theorem detectDelimiter_last_of_tied_witness :
    sampleLines "a,b;c".toList ≠ [] ∧
    (detectDelimiter "a,b;c".toList ∈ delimiters ∧
    (∀ c ∈ delimiters,
      score (sampleLines "a,b;c".toList) c ≤
        score (sampleLines "a,b;c".toList) (detectDelimiter "a,b;c".toList)) ∧
    (∀ c ∈ delimiters,
      score (sampleLines "a,b;c".toList) c =
        score (sampleLines "a,b;c".toList) (detectDelimiter "a,b;c".toList) →
      delimiters.indexOf c ≤ delimiters.indexOf (detectDelimiter "a,b;c".toList))) :=
  ⟨by decide, detectDelimiter_last_of_tied "a,b;c".toList (by decide)⟩

/-- C1 (counterexample): in `a,b;c` the candidates `,` and `;` both occur once
and tab never, so `,` and `;` share the highest score; `detectDelimiter` returns
`;`, not the first of the two. -/
theorem detectDelimiter_tie_counterexample :
    sampleLines "a,b;c".toList = ["a,b;c".toList] ∧
    score (sampleLines "a,b;c".toList) ',' = 1 ∧
    score (sampleLines "a,b;c".toList) ';' = 1 ∧
    score (sampleLines "a,b;c".toList) '\t' = 0 ∧
    detectDelimiter "a,b;c".toList = ';' ∧
    detectDelimiter "a,b;c".toList ≠ ',' := by
  decide

theorem score_take (lines : List Str) (c : Char) : score (lines.take 3) c = score lines c := by
  simp [score, List.take_take]

theorem detectDelimiter_congr (t1 t2 : Str)
    (h : (sampleLines t1).take 3 = (sampleLines t2).take 3) :
    detectDelimiter t1 = detectDelimiter t2 := by
  have hs : score (sampleLines t1) = score (sampleLines t2) := by
    funext c
    rw [← score_take (sampleLines t1), ← score_take (sampleLines t2), h]
  have hl : (sampleLines t1).length = 0 ↔ (sampleLines t2).length = 0 := by
    have := congrArg List.length h
    simp only [List.length_take] at this
    omega
  unfold detectDelimiter
  simp only [hs]
  by_cases h0 : (sampleLines t1).length = 0
  · simp [h0, hl.1 h0]
  · simp [h0, mt hl.2 h0]

/-- C9: with at least one non-blank line, `detectDelimiter` returns one of `,`,
`;`, tab; no candidate occurs more often in the first three non-blank lines
than the returned one; a text with the same first three non-blank lines gives
the same result; and the two sample texts give `,` and `;`. -/
theorem detectDelimiter_highest_score (text : Str) (h : sampleLines text ≠ []) :
    (detectDelimiter text = ',' ∨ detectDelimiter text = ';' ∨ detectDelimiter text = '\t') ∧
    (∀ c ∈ delimiters,
      occurrences (sampleLines text) c ≤ occurrences (sampleLines text) (detectDelimiter text)) ∧
    (∀ other : Str, (sampleLines other).take 3 = (sampleLines text).take 3 →
      detectDelimiter other = detectDelimiter text) ∧
    detectDelimiter "a,b,c\nd,e,f".toList = ',' ∧
    detectDelimiter "a;b;c\nd;e;f".toList = ';' := by
  refine ⟨?_, ?_, fun other ho => detectDelimiter_congr other text ho, by decide, by decide⟩
  · rw [detectDelimiter_of_lines text h]
    simp only [reduceKeys, List.foldl_cons, List.foldl_nil]
    split_ifs <;> simp
  · intro c hc
    simp only [← score_eq_occurrences]
    rw [detectDelimiter_of_lines text h]
    generalize score (sampleLines text) = sc
    simp only [reduceKeys, List.foldl_cons, List.foldl_nil]
    rcases (mem_delimiters c).1 hc with rfl | rfl | rfl <;> split_ifs <;> omega

theorem detectDelimiter_highest_score_witness :
    sampleLines "x;y,z\n1;2\n\n3;4\n5,6,7,8".toList ≠ [] ∧
    detectDelimiter "x;y,z\n1;2\n\n3;4\n5,6,7,8".toList = ';' ∧
    (∀ other : Str,
      (sampleLines other).take 3 = (sampleLines "x;y,z\n1;2\n\n3;4\n5,6,7,8".toList).take 3 →
      detectDelimiter other = detectDelimiter "x;y,z\n1;2\n\n3;4\n5,6,7,8".toList) :=
  ⟨by decide, by decide,
    (detectDelimiter_highest_score "x;y,z\n1;2\n\n3;4\n5,6,7,8".toList (by decide)).2.2.1⟩

/-! ## Lemmas on the data-URL pattern -/

theorem marker_toList : ";base64".toList = [';', 'b', 'a', 's', 'e', '6', '4'] := rfl

theorem markerComma_toList : ";base64,".toList = [';', 'b', 'a', 's', 'e', '6', '4', ','] := rfl

theorem dataPrefix_toList : "data:".toList = ['d', 'a', 't', 'a', ':'] := rfl

theorem matchTail_marker (p : Str) :
    matchTail (";base64,".toList ++ p) =
      if p.all (fun x => !isLineTerminator x) then some (true, p) else none := by
  rw [markerComma_toList]
  by_cases hp : p.all (fun x => !isLineTerminator x) = true
  · simp [matchTail, marker_toList, matchPayload, hp, List.isPrefixOf]
  · simp [matchTail, marker_toList, matchPayload, hp, List.isPrefixOf]

theorem matchTail_no_lineEnd (c : Char) (s p : Str) (hc : c ≠ ';')
    (hp : p.all (fun x => !isLineTerminator x) = false) :
    matchTail (c :: (s ++ p)) = none := by
  have h1 : (c == ';') = false := by simpa using hc
  have h2 : (c :: (s ++ p)).tail.all (fun x => !isLineTerminator x) = false := by
    simp only [List.tail_cons, List.all_append, hp, Bool.and_false]
  simp only [List.tail_cons] at h2
  simp [matchTail, marker_toList, matchPayload, List.isPrefixOf, h1, h2, hc, Ne.symm hc]

theorem matchClassStar_marker (m p : Str) (hm : ';' ∉ m) :
    matchClassStar (m ++ (";base64,".toList ++ p)) =
      if p.all (fun x => !isLineTerminator x) then some (m, true, p) else none := by
  induction m with
  | nil =>
    have h := matchTail_marker p
    rw [markerComma_toList] at h ⊢
    simp only [List.nil_append, List.cons_append] at h ⊢
    rw [matchClassStar, h]
    by_cases hp : p.all (fun x => !isLineTerminator x) = true <;> simp [hp]
  | cons c cs ih =>
    have hc : c ≠ ';' := fun h => hm (by simp [h])
    have hcs : ';' ∉ cs := fun h => hm (by simp [h])
    rw [List.cons_append, matchClassStar, if_pos hc, ih hcs]
    by_cases hp : p.all (fun x => !isLineTerminator x) = true
    · simp [hp]
    · have hp' : p.all (fun x => !isLineTerminator x) = false := by simpa using hp
      have := matchTail_no_lineEnd c (cs ++ ";base64,".toList) p hc hp'
      rw [List.append_assoc] at this
      rw [this]
      simp [hp']

theorem dataUrlMatch_marker (m p : Str) (hne : m ≠ []) (hm : ';' ∉ m) :
    dataUrlMatch ("data:".toList ++ m ++ ";base64,".toList ++ p) =
      if p.all (fun x => !isLineTerminator x) then some (m, true, p) else none := by
  cases m with
  | nil => exact absurd rfl hne
  | cons c cs =>
    have hc : c ≠ ';' := fun h => hm (by simp [h])
    have hcs : ';' ∉ cs := fun h => hm (by simp [h])
    have hstar := matchClassStar_marker cs p hcs
    have hpre : "data:".toList.isPrefixOf
        ("data:".toList ++ (c :: cs) ++ ";base64,".toList ++ p) = true := by
      simp [dataPrefix_toList, List.isPrefixOf]
    have hdrop : ("data:".toList ++ (c :: cs) ++ ";base64,".toList ++ p).drop 5 =
        c :: (cs ++ (";base64,".toList ++ p)) := by
      simp [dataPrefix_toList]
    unfold dataUrlMatch
    rw [if_pos hpre, hdrop]
    simp only [if_pos hc, hstar]
    by_cases hp : p.all (fun x => !isLineTerminator x) = true <;> simp [hp]

theorem isPrefixOf_dataUrl (rest : Str) :
    "data:".toList.isPrefixOf ("data:".toList ++ rest) = true := by
  simp [dataPrefix_toList, List.isPrefixOf]

/-- A data URL `data:<mime>;base64,<payload>`, with a non-empty mime part free of
`;`, whose payload makes `atob` throw, makes `parseDataUrl` return `null`. -/
theorem parseDataUrl_bad_base64 (m p : Str) (hne : m ≠ []) (hm : ';' ∉ m)
    (hbad : atob p = none) :
    parseDataUrl ("data:".toList ++ m ++ ";base64,".toList ++ p) = none := by
  have hpre : "data:".toList.isPrefixOf ("data:".toList ++ m ++ ";base64,".toList ++ p) = true := by
    rw [List.append_assoc, List.append_assoc]; exact isPrefixOf_dataUrl _
  unfold parseDataUrl
  rw [hpre, dataUrlMatch_marker m p hne hm]
  by_cases hp : p.all (fun x => !isLineTerminator x) = true
  · simp [hp, hbad]
  · simp [hp]

/-- C3 (as amended): a data URL `data:<mime>;base64,<payload>`, with a non-empty
mime part free of `;`, whose payload has no line terminator and is accepted by
`atob`, never gives `null`: the result has `isBase64` true and as text the
UTF-8 decoding of the bytes in replacement mode, whether or not the bytes are
valid UTF-8. -/
theorem parseDataUrl_base64_decodes (m p binary : Str) (hne : m ≠ []) (hm : ';' ∉ m)
    (hp : ∀ c ∈ p, isLineTerminator c = false) (hok : atob p = some binary) :
    parseDataUrl ("data:".toList ++ m ++ ";base64,".toList ++ p) =
      some ⟨m, true, textDecode (binary.map (fun c => c.toNat % 256))⟩ := by
  have hpre : "data:".toList.isPrefixOf ("data:".toList ++ m ++ ";base64,".toList ++ p) = true := by
    rw [List.append_assoc, List.append_assoc]; exact isPrefixOf_dataUrl _
  have hall : p.all (fun x => !isLineTerminator x) = true := by
    simp only [List.all_eq_true, Bool.not_eq_true']
    exact hp
  unfold parseDataUrl
  rw [hpre, dataUrlMatch_marker m p hne hm]
  simp [hall, hok]

theorem parseDataUrl_base64_decodes_witness :
    atob "YcOp/w==".toList = some ['a', Char.ofNat 0xC3, Char.ofNat 0xA9, Char.ofNat 0xFF] ∧
    parseDataUrl ("data:".toList ++ "text/csv".toList ++ ";base64,".toList ++ "YcOp/w==".toList) =
      some ⟨"text/csv".toList, true,
        textDecode (['a', Char.ofNat 0xC3, Char.ofNat 0xA9, Char.ofNat 0xFF].map
          (fun c => c.toNat % 256))⟩ :=
  ⟨by decide, parseDataUrl_base64_decodes "text/csv".toList "YcOp/w==".toList _ (by decide)
    (by decide) (by decide) (by decide)⟩

/-- C3 (counterexample): the payload `/w==` is well-formed base64 for the single
byte `0xFF`, which occurs in no UTF-8 sequence; `parseDataUrl` does not return
`null` but a payload whose text is the replacement character U+FFFD. -/
theorem parseDataUrl_invalid_utf8_counterexample :
    atob "/w==".toList = some [Char.ofNat 0xFF] ∧
    parseDataUrl "data:text/csv;base64,/w==".toList =
      some ⟨"text/csv".toList, true, [Char.ofNat 0xFFFD]⟩ ∧
    parseDataUrl "data:text/csv;base64,/w==".toList ≠ none := by
  decide

/-- C2 (the code at the failing input): for the mime `text/plain` and the
payload `a,b`, `parseDataUrl` cuts at the last comma: the mime it returns is
`text/plain,a` and the text is `b`, not `text/plain` and `a,b`. -/
theorem parseDataUrl_splits_at_last_comma :
    parseDataUrl ("data:".toList ++ "text/plain".toList ++ ",".toList ++ "a,b".toList) =
      some ⟨"text/plain,a".toList, false, "b".toList⟩ ∧
    decodeURIComponent "a,b".toList = some "a,b".toList := by
  decide

/-! ## Payloads `atob` rejects -/

theorem base64Values_none_of_mem (c : Char) (s : Str) (hc : c ∈ s) (hv : base64Value c = none) :
    base64Values s = none := by
  induction s with
  | nil => simp at hc
  | cons x xs ih =>
    rcases List.mem_cons.1 hc with e | e
    · subst e
      simp [base64Values, hv]
    · rw [base64Values, ih e]
      cases base64Value x <;> rfl

theorem mem_stripPadding (c : Char) (s : Str) (hc : c ∈ s) (hne : c ≠ '=') :
    c ∈ stripPadding s := by
  unfold stripPadding
  have hrev : c ∈ s.reverse := List.mem_reverse.2 hc
  cases hr : s.reverse with
  | nil => rw [hr] at hrev; simp at hrev
  | cons a t =>
    rw [hr] at hrev
    cases t with
    | nil =>
      simp only [List.mem_singleton] at hrev
      subst hrev
      simp only [if_neg hne]
      exact hc
    | cons b rest =>
      simp only
      split_ifs with h1 h2
      · rcases List.mem_cons.1 hrev with e | e
        · exact absurd (e.trans h1.1) hne
        · rcases List.mem_cons.1 e with e' | e'
          · exact absurd (e'.trans h1.2) hne
          · exact List.mem_reverse.2 e'
      · rcases List.mem_cons.1 hrev with e | e
        · exact absurd (e.trans h2) hne
        · exact List.mem_reverse.2 e
      · exact hc

theorem atob_none_of_bad_char (p : Str) (c : Char) (hc : c ∈ p)
    (hws : isAsciiWhitespace c = false) (hne : c ≠ '=') (hv : base64Value c = none) :
    atob p = none := by
  have h1 : c ∈ p.filter (fun x => !isAsciiWhitespace x) := by
    rw [List.mem_filter]
    exact ⟨hc, by simp [hws]⟩
  simp only [atob]
  by_cases h4 : (p.filter (fun x => !isAsciiWhitespace x)).length % 4 = 0
  · simp only [h4, if_true]
    rw [base64Values_none_of_mem c _ (mem_stripPadding c _ h1 hne) hv]
    split_ifs <;> rfl
  · simp only [h4, if_false]
    rw [base64Values_none_of_mem c _ h1 hv]
    split_ifs <;> rfl

/-! ## Lemmas on `parseCsv` -/

theorem collectRows_foldl (d : Char) (lines : List Str) (acc : List (List Str)) :
    lines.foldl
      (fun rows line =>
        if (trim line).isEmpty then rows else rows ++ [(split d line).map cellTransform])
      acc =
    acc ++ (lines.filter nonBlank).map (fun line => (split d line).map cellTransform) := by
  induction lines generalizing acc with
  | nil => simp
  | cons l ls ih =>
    rw [List.foldl_cons, ih]
    by_cases hl : (trim l).isEmpty = true
    · simp [nonBlank, hl]
    · simp [nonBlank, hl]

theorem collectRows_eq (d : Char) (lines : List Str) :
    collectRows d lines =
      (lines.filter nonBlank).map (fun line => (split d line).map cellTransform) := by
  unfold collectRows
  rw [collectRows_foldl]
  simp

theorem collectRows_of_nonBlank (d : Char) (lines : List Str)
    (h : ∀ l ∈ lines, nonBlank l = true) :
    collectRows d lines = lines.map (fun line => (split d line).map cellTransform) := by
  rw [collectRows_eq, List.filter_eq_self.2 h]

theorem parseCsv_nil (text : Str) (h : (split '\n' (prepare text)).filter nonBlank = []) :
    parseCsv text = ⟨some [], []⟩ := by
  unfold parseCsv
  simp only [h]

theorem parseCsv_cons (text first : Str) (rest : List Str)
    (h : (split '\n' (prepare text)).filter nonBlank = first :: rest) :
    parseCsv text =
      ⟨if (split (detectDelimiter (prepare text)) first).any (fun cell => (parseFloat cell).isNaN)
        then some ((split (detectDelimiter (prepare text)) first).map trim) else none,
       collectRows (detectDelimiter (prepare text))
        ((first :: rest).drop
          (if (split (detectDelimiter (prepare text)) first).any
            (fun cell => (parseFloat cell).isNaN) then 1 else 0))⟩ := by
  unfold parseCsv
  simp only [h]

theorem lines_nonBlank (text : Str) :
    ∀ l ∈ (split '\n' (prepare text)).filter nonBlank, nonBlank l = true := by
  intro l hl
  exact (List.mem_filter.1 hl).2

/-- C4 (as amended): a text with no non-blank line after line-ending
normalisation and BOM stripping gives a table whose rows are empty and whose
headers are the empty list, a present value and not the `null` of an
all-numeric first line. -/
theorem parseCsv_blank (text : Str)
    (h : (split '\n' (prepare text)).filter nonBlank = []) :
    (parseCsv text).headers = some [] ∧ (parseCsv text).rows = [] ∧
    (parseCsv text).headers ≠ none := by
  rw [parseCsv_nil text h]
  simp

theorem parseCsv_blank_witness :
    (split '\n' (prepare " \r\n\t\r".toList)).filter nonBlank = [] ∧
    ((parseCsv " \r\n\t\r".toList).headers = some [] ∧ (parseCsv " \r\n\t\r".toList).rows = [] ∧
    (parseCsv " \r\n\t\r".toList).headers ≠ none) :=
  ⟨by decide, parseCsv_blank " \r\n\t\r".toList (by decide)⟩

/-- C4 (counterexample): the text of one blank and a line break has no non-blank
line; its table has the headers `[]`, while the all-numeric text `1,2` has the
headers `null`: the two values differ, and `init` tells them apart (an empty
header list displays `Error`, absent headers display a total). -/
theorem parseCsv_blank_counterexample :
    (split '\n' (prepare " \n".toList)).filter nonBlank = [] ∧
    (parseCsv " \n".toList).headers = some [] ∧
    (parseCsv "1,2".toList).headers = none ∧
    (parseCsv " \n".toList).headers ≠ (parseCsv "1,2".toList).headers ∧
    display (parseCsv " \n".toList) = "Error".toList ∧
    display ⟨none, []⟩ = "0.00".toList := by
  decide

/-- C7: with `first` the first non-blank line of the prepared text and `cells`
its split by the detected delimiter, `parseCsv` returns present headers exactly
when some cell fails to parse as a number; the headers are then the trimmed
cells in order; and when every cell parses the headers are absent and the
first row is made of the cells of `first`. -/
theorem parseCsv_header_detection (text first : Str) (rest : List Str)
    (h : (split '\n' (prepare text)).filter nonBlank = first :: rest) :
    ((parseCsv text).headers.isSome = true ↔
      ∃ cell ∈ split (detectDelimiter (prepare text)) first, (parseFloat cell).isNaN = true) ∧
    ((∃ cell ∈ split (detectDelimiter (prepare text)) first, (parseFloat cell).isNaN = true) →
      (parseCsv text).headers = some ((split (detectDelimiter (prepare text)) first).map trim)) ∧
    ((∀ cell ∈ split (detectDelimiter (prepare text)) first, (parseFloat cell).isNaN = false) →
      (parseCsv text).headers = none ∧
      (parseCsv text).rows.head? =
        some ((split (detectDelimiter (prepare text)) first).map cellTransform)) := by
  have hnb : ∀ l ∈ first :: rest, nonBlank l = true := by
    rw [← h]; exact lines_nonBlank text
  rw [parseCsv_cons text first rest h]
  by_cases hany : (split (detectDelimiter (prepare text)) first).any
      (fun cell => (parseFloat cell).isNaN) = true
  · have hex := List.any_eq_true.1 hany
    refine ⟨?_, ?_, ?_⟩
    · simp [hany, hex]
    · intro _; simp [hany]
    · intro hall
      obtain ⟨cell, hc, hn⟩ := hex
      rw [hall cell hc] at hn
      exact absurd hn (by simp)
  · have hnone : ¬ ∃ cell ∈ split (detectDelimiter (prepare text)) first,
        (parseFloat cell).isNaN = true := fun hex => hany (List.any_eq_true.2 hex)
    refine ⟨?_, ?_, ?_⟩
    · simp [hany, hnone]
    · intro hex; exact absurd hex hnone
    · intro _
      simp only [hany, if_false, List.drop_zero, Bool.false_eq_true]
      rw [collectRows_of_nonBlank _ _ hnb]
      simp

theorem parseCsv_header_detection_witness :
    (split '\n' (prepare "item,sales\nApples,120.50\n".toList)).filter nonBlank =
      "item,sales".toList :: ["Apples,120.50".toList] ∧
    (parseCsv "item,sales\nApples,120.50\n".toList).headers =
      some ["item".toList, "sales".toList] ∧
    ((parseCsv "item,sales\nApples,120.50\n".toList).headers.isSome = true ↔
      ∃ cell ∈ split (detectDelimiter (prepare "item,sales\nApples,120.50\n".toList))
        "item,sales".toList, (parseFloat cell).isNaN = true) :=
  ⟨by decide, by decide,
    (parseCsv_header_detection "item,sales\nApples,120.50\n".toList "item,sales".toList
      ["Apples,120.50".toList] (by decide)).1⟩

set_option maxRecDepth 100000 in
/-- C6: on the built-in attachment, `parseDataUrl` decodes the URL to the CSV
text of the header `item,sales` and five data lines, `parseCsv` finds the header
`sales` at index 1 and five rows, and `init` leaves `585.90` in the display
target. -/
theorem init_displays_total :
    (attachments.map Prod.snd).head? = some "data:text/csv;base64,aXRlbSxzYWxlcwpBcHBsZXMsMTIwLjUwCkJhbmFuYXMsODUuNzUKT3JhbmdlcywxNTAuMjUKR3JhcGVzLDk5LjAwCk1hbmdvZXMsMTMwLjQwCg==".toList ∧
    parseDataUrl "data:text/csv;base64,aXRlbSxzYWxlcwpBcHBsZXMsMTIwLjUwCkJhbmFuYXMsODUuNzUKT3JhbmdlcywxNTAuMjUKR3JhcGVzLDk5LjAwCk1hbmdvZXMsMTMwLjQwCg==".toList =
      some ⟨"text/csv".toList, true,
        "item,sales\nApples,120.50\nBananas,85.75\nOranges,150.25\nGrapes,99.00\nMangoes,130.40\n".toList⟩ ∧
    parseCsv "item,sales\nApples,120.50\nBananas,85.75\nOranges,150.25\nGrapes,99.00\nMangoes,130.40\n".toList =
      ⟨some ["item".toList, "sales".toList],
        [["Apples".toList, "120.50".toList], ["Bananas".toList, "85.75".toList],
         ["Oranges".toList, "150.25".toList], ["Grapes".toList, "99.00".toList],
         ["Mangoes".toList, "130.40".toList]]⟩ ∧
    salesColumnIndex (some ["item".toList, "sales".toList]) = some 1 ∧
    init = "585.90".toList := by
  decide

/-! ## The cell transform -/

theorem isSuffixOf_single (c : Char) (s : Str) :
    [c].isSuffixOf s = true ↔ s.getLast? = some c := by
  rw [List.isSuffixOf_iff_suffix]
  constructor
  · rintro ⟨t, rfl⟩
    simp
  · intro h
    obtain ⟨t, rfl⟩ : ∃ t, s = t ++ [c] := by
      rcases List.eq_nil_or_concat s with rfl | ⟨t, x, rfl⟩
      · simp at h
      · simp at h; exact ⟨t, by rw [h]; simp⟩
    exact ⟨t, rfl⟩

theorem isPrefixOf_single (c : Char) (s : Str) :
    [c].isPrefixOf s = true ↔ s.head? = some c := by
  cases s with
  | nil => simp [List.isPrefixOf]
  | cons x xs =>
    simp only [List.isPrefixOf, List.head?_cons, Option.some.injEq, Bool.and_true, beq_iff_eq]
    exact eq_comm

theorem substring_inner (s : Str) (h : 2 ≤ s.length) :
    substring s 1 ((s.length : Int) - 1) = (s.drop 1).dropLast := by
  have hb : ((s.length : Int) - 1).toNat = s.length - 1 := by omega
  unfold substring
  rw [hb]
  have h1 : min (1 : Int).toNat s.length = 1 := by
    have : (1 : Int).toNat = 1 := rfl
    rw [this]; omega
  have h2 : min (s.length - 1) s.length = s.length - 1 := by omega
  rw [h1, h2]
  have h3 : min 1 (s.length - 1) = 1 := by omega
  have h4 : max 1 (s.length - 1) = s.length - 1 := by omega
  show List.take (max 1 (s.length - 1) - min 1 (s.length - 1)) (List.drop (min 1 (s.length - 1)) s) = _
  rw [h3, h4, List.dropLast_eq_take]
  simp

theorem cellTransform_eq (cell : Str) : cellTransform cell = unquoteOrTrim cell := by
  unfold cellTransform unquoteOrTrim
  by_cases hq : cell.head? = some '"' ∧ cell.getLast? = some '"'
  · have hpre := (isPrefixOf_single '"' cell).2 hq.1
    have hsuf := (isSuffixOf_single '"' cell).2 hq.2
    simp only [hpre, hsuf, Bool.and_self, if_true]
    by_cases hlen : 2 ≤ cell.length
    · rw [if_pos ⟨hlen, hq⟩, substring_inner cell hlen]
    · rw [if_neg (fun h => hlen h.1)]
      match cell, hq, hlen with
      | [], hq, _ => simp at hq
      | [c], hq, _ =>
        simp at hq
        subst hq
        decide
      | _ :: _ :: _, _, hlen => simp at hlen
  · have hcond : ¬ ((['"'].isPrefixOf cell && ['"'].isSuffixOf cell) = true) := by
      intro h
      rw [Bool.and_eq_true] at h
      exact hq ⟨(isPrefixOf_single '"' cell).1 h.1, (isSuffixOf_single '"' cell).1 h.2⟩
    rw [if_neg hcond, if_neg (fun h => hq h.2)]

/-- C8 (as amended): every row of `parseCsv` is a data line split on the detected
delimiter with each cell transformed: a cell of at least two characters that
starts and ends with a double quote loses one leading and one trailing quote
and has every two consecutive quotes replaced by one; any other cell, the
single double quote included, is stored trimmed. -/
theorem parseCsv_rows_cells (text : Str) :
    (parseCsv text).rows =
      (((split '\n' (prepare text)).filter nonBlank).drop
        (if (parseCsv text).headers.isSome then 1 else 0)).map
        (fun line => (split (detectDelimiter (prepare text)) line).map unquoteOrTrim) := by
  have hfun : (fun line : Str => (split (detectDelimiter (prepare text)) line).map cellTransform) =
      (fun line => (split (detectDelimiter (prepare text)) line).map unquoteOrTrim) := by
    funext line
    exact List.map_congr_left (fun c _ => cellTransform_eq c)
  cases hl : (split '\n' (prepare text)).filter nonBlank with
  | nil =>
    rw [parseCsv_nil text hl]
    simp
  | cons first rest =>
    have hnb : ∀ l ∈ first :: rest, nonBlank l = true := by
      rw [← hl]; exact lines_nonBlank text
    rw [parseCsv_cons text first rest hl]
    by_cases hany : (split (detectDelimiter (prepare text)) first).any
        (fun cell => (parseFloat cell).isNaN) = true
    · simp only [hany, if_true, Option.isSome_some, List.drop_succ_cons, List.drop_zero]
      rw [collectRows_of_nonBlank _ _ (fun l hl => hnb l (List.mem_cons_of_mem _ hl)), hfun]
    · simp only [hany, if_false, Option.isSome_none, List.drop_zero, Bool.false_eq_true]
      rw [collectRows_of_nonBlank _ _ hnb, hfun]

/-- C8 (counterexample): the data line made of a single double quote is one
cell that starts and ends with a double quote; the row stores it unchanged,
whereas removing a leading and a trailing quote leaves nothing. -/
theorem parseCsv_lone_quote_counterexample :
    (parseCsv "a\n\"".toList).rows = [["\"".toList]] ∧
    (['"'].isPrefixOf "\"".toList && ['"'].isSuffixOf "\"".toList) = true ∧
    cellTransform "\"".toList = "\"".toList ∧
    unescapeQuotes ("\"".toList.drop 1).dropLast = [] ∧
    cellTransform "\"".toList ≠ unescapeQuotes ("\"".toList.drop 1).dropLast := by
  decide

/-! ## Lemmas on trimming -/

theorem rdropWhile_append_rest (p : Char → Bool) (l : Str) :
    ∃ w, l = l.rdropWhile p ++ w ∧ ∀ x ∈ w, p x = true := by
  induction l using List.reverseRecOn with
  | nil => exact ⟨[], by simp, by simp⟩
  | append_singleton l x ih =>
    by_cases hx : p x = true
    · obtain ⟨w, hw, hall⟩ := ih
      refine ⟨w ++ [x], ?_, ?_⟩
      · rw [List.rdropWhile_concat_pos _ _ _ hx, ← List.append_assoc, ← hw]
      · intro y hy
        rcases List.mem_append.1 hy with h | h
        · exact hall y h
        · simp at h; rw [h]; exact hx
    · exact ⟨[], by rw [List.rdropWhile_concat_neg _ _ _ hx]; simp, by simp⟩

theorem trim_decomp (s : Str) :
    ∃ w1 w2, s = w1 ++ trim s ++ w2 ∧ (∀ x ∈ w1, isWhiteSpace x = true) ∧
      (∀ x ∈ w2, isWhiteSpace x = true) := by
  obtain ⟨w2, hw2, hall2⟩ := rdropWhile_append_rest isWhiteSpace (trimStart s)
  refine ⟨s.takeWhile isWhiteSpace, w2, ?_, fun x hx => List.mem_takeWhile_imp hx, hall2⟩
  have h1 : s = s.takeWhile isWhiteSpace ++ trimStart s :=
    (List.takeWhile_append_dropWhile isWhiteSpace s).symm
  have h2 : trimStart s = trim s ++ w2 := hw2
  rw [List.append_assoc, ← h2, ← h1]

theorem trimStart_head (s : Str) (c : Char) (cs : Str) (h : trimStart s = c :: cs) :
    isWhiteSpace c = false := by
  have := List.dropWhile_idempotent (p := isWhiteSpace) (l := s)
  unfold trimStart at h
  rw [h, List.dropWhile_cons] at this
  by_cases hc : isWhiteSpace c = true
  · rw [if_pos hc] at this
    have hlen := congrArg List.length this
    have hsub := (List.dropWhile_sublist isWhiteSpace (l := cs)).length_le
    simp at hlen
    omega
  · simpa using hc

theorem trim_head (s : Str) (c : Char) (cs : Str) (h : trim s = c :: cs) :
    isWhiteSpace c = false := by
  have hpre : trim s <+: trimStart s := List.rdropWhile_prefix isWhiteSpace (trimStart s)
  obtain ⟨t, ht⟩ := hpre
  rw [h] at ht
  exact trimStart_head s c (cs ++ t) (by rw [← ht]; simp)

theorem trimStart_of_head (s : Str) (h : ∀ c cs, s = c :: cs → isWhiteSpace c = false) :
    trimStart s = s := by
  cases s with
  | nil => rfl
  | cons c cs => simp [trimStart, List.dropWhile_cons, h c cs rfl]

theorem trimStart_trim (s : Str) : trimStart (trim s) = trim s :=
  trimStart_of_head _ (fun c cs h => trim_head s c cs h)

theorem trimEnd_trim (s : Str) : trimEnd (trim s) = trim s :=
  List.rdropWhile_idempotent isWhiteSpace (trimStart s)

theorem trim_trim (s : Str) : trim (trim s) = trim s := by
  show trimEnd (trimStart (trim s)) = trim s
  rw [trimStart_trim, trimEnd_trim]

theorem trim_sublist (s : Str) : (trim s).Sublist s :=
  ((List.rdropWhile_prefix isWhiteSpace (trimStart s)).sublist).trans (List.dropWhile_sublist isWhiteSpace)

theorem count_trim_le (c : Char) (s : Str) : (trim s).count c ≤ s.count c :=
  (trim_sublist s).count_le c

theorem count_eq_zero_of_all_ws (c : Char) (w : Str) (hc : isWhiteSpace c = false)
    (hw : ∀ x ∈ w, isWhiteSpace x = true) : w.count c = 0 := by
  rw [List.count_eq_zero]
  intro hmem
  rw [hw c hmem] at hc
  exact absurd hc (by simp)

theorem count_trim_eq (c : Char) (s : Str) (hc : isWhiteSpace c = false) :
    (trim s).count c = s.count c := by
  obtain ⟨w1, w2, hs, h1, h2⟩ := trim_decomp s
  conv_rhs => rw [hs]
  rw [List.count_append, List.count_append, count_eq_zero_of_all_ws c w1 hc h1,
    count_eq_zero_of_all_ws c w2 hc h2]
  simp

theorem mem_of_mem_trim (c : Char) (s : Str) (h : c ∈ trim s) : c ∈ s :=
  (trim_sublist s).subset h

theorem nonBlank_iff (s : Str) : nonBlank s = true ↔ ∃ c ∈ s, isWhiteSpace c = false := by
  constructor
  · intro h
    cases ht : trim s with
    | nil => simp [nonBlank, ht] at h
    | cons c cs =>
      exact ⟨c, mem_of_mem_trim c s (by rw [ht]; simp), trim_head s c cs ht⟩
  · rintro ⟨c, hc, hws⟩
    have hcount : 0 < (trim s).count c := by
      rw [count_trim_eq c s hws]; exact List.count_pos_iff.2 hc
    have hmem : c ∈ trim s := List.count_pos_iff.1 hcount
    cases ht : trim s with
    | nil => rw [ht] at hmem; simp at hmem
    | cons d ds => simp [nonBlank, ht]

/-! ## `parseFloat` and trimming -/

theorem isNaN_nan : Num.nan.isNaN = true := rfl

theorem roundToDouble_isNaN (neg : Bool) (n d : Nat) : (roundToDouble neg n d).isNaN = false := by
  simp only [roundToDouble]
  split_ifs <;> rfl

theorem infinity_toList : "Infinity".toList = ['I', 'n', 'f', 'i', 'n', 'i', 't', 'y'] := rfl

theorem takeWhile_isEmpty (p : Char → Bool) (s : Str) :
    (s.takeWhile p).isEmpty = !(s.head?.any p) := by
  cases s with
  | nil => rfl
  | cons c cs =>
    by_cases hc : p c = true
    · simp [List.takeWhile_cons, hc]
    · simp [List.takeWhile_cons, hc]

theorem unsignedLiteral_isNaN (neg : Bool) (s : Str) :
    (unsignedLiteral neg s).isNaN = !startsUnsigned s := by
  by_cases hinf : "Infinity".toList.isPrefixOf s = true
  · simp only [unsignedLiteral, startsUnsigned, hinf, if_true, Bool.true_or, Bool.not_true]
    rfl
  · have hinf' : "Infinity".toList.isPrefixOf s = false := Bool.eq_false_iff.2 hinf
    simp only [unsignedLiteral, startsUnsigned, hinf', Bool.false_or, Bool.false_eq_true, if_false,
      apply_ite Num.isNaN, isNaN_nan, roundToDouble_isNaN, takeWhile_isEmpty]
    cases s with
    | nil => simp
    | cons c cs =>
      by_cases hd : isDigit c = true
      · simp [hd]
      · have hd' : isDigit c = false := by simpa using hd
        have hdr : List.dropWhile isDigit (c :: cs) = c :: cs := by
          simp [List.dropWhile_cons, hd']
        simp only [hdr, List.head?_cons, List.drop_succ_cons, List.drop_zero,
          Option.some.injEq, Option.any_some, hd']
        by_cases hdot : c = '.'
        · subst hdot
          cases hh : cs.head?.any isDigit <;> simp
        · simp [hdot]

theorem parseFloat_isNaN (s : Str) : (parseFloat s).isNaN = !startsLiteral (trimStart s) := by
  unfold parseFloat startsLiteral
  by_cases h1 : (trimStart s).head? = some '+'
  · simp [h1, unsignedLiteral_isNaN]
  · by_cases h2 : (trimStart s).head? = some '-'
    · simp [h1, h2, unsignedLiteral_isNaN]
    · simp [h1, h2, unsignedLiteral_isNaN]

theorem isPrefixOf_append_ws (p u w : Str) (hp : ∀ x ∈ p, isWhiteSpace x = false)
    (hw : ∀ x ∈ w, isWhiteSpace x = true) : p.isPrefixOf (u ++ w) = p.isPrefixOf u := by
  induction p generalizing u with
  | nil => simp [List.isPrefixOf]
  | cons a p ih =>
    cases u with
    | nil =>
      cases w with
      | nil => rfl
      | cons b w =>
        have ha := hp a (by simp)
        have hb := hw b (by simp)
        have hab : (a == b) = false := by
          rw [beq_eq_false_iff_ne]
          intro h; rw [h, hb] at ha; exact absurd ha (by simp)
        simp [List.isPrefixOf, hab]
    | cons b u =>
      show (a == b && p.isPrefixOf (u ++ w)) = (a == b && p.isPrefixOf u)
      rw [ih u (fun x hx => hp x (List.mem_cons_of_mem _ hx))]

theorem head?_any_append_ws (q : Char → Bool) (u w : Str)
    (hq : ∀ x, isWhiteSpace x = true → q x = false)
    (hw : ∀ x ∈ w, isWhiteSpace x = true) : (u ++ w).head?.any q = u.head?.any q := by
  cases u with
  | nil =>
    cases w with
    | nil => rfl
    | cons b w => simp [hq b (hw b (by simp))]
  | cons c u => rfl

theorem isDigit_of_ws (x : Char) (h : isWhiteSpace x = true) : isDigit x = false := by
  unfold isWhiteSpace at h
  unfold isDigit
  simp only [Bool.or_eq_true, Bool.and_eq_true, decide_eq_true_eq] at h
  simp only [Bool.and_eq_false_imp, decide_eq_true_eq, decide_eq_false_iff_not]
  omega

theorem head?_eq_append_ws (a : Char) (u w : Str) (ha : isWhiteSpace a = false)
    (hw : ∀ x ∈ w, isWhiteSpace x = true) : ((u ++ w).head? = some a) ↔ (u.head? = some a) := by
  cases u with
  | nil =>
    cases w with
    | nil => simp
    | cons b w =>
      have hb := hw b (by simp)
      simp only [List.nil_append, List.head?_cons, Option.some.injEq, List.head?_nil]
      constructor
      · intro h; rw [h, ha] at hb; exact absurd hb (by simp)
      · intro h; exact absurd h (by simp)
  | cons c u => simp

theorem startsUnsigned_append_ws (u w : Str) (hw : ∀ x ∈ w, isWhiteSpace x = true) :
    startsUnsigned (u ++ w) = startsUnsigned u := by
  unfold startsUnsigned
  rw [isPrefixOf_append_ws _ u w (by rw [infinity_toList]; decide) hw,
    head?_any_append_ws isDigit u w isDigit_of_ws hw]
  congr 1
  cases u with
  | nil =>
    cases w with
    | nil => rfl
    | cons b w =>
      have hb := hw b (by simp)
      have : (b == '.') = false := by
        rw [beq_eq_false_iff_ne]
        intro h; rw [h] at hb; exact absurd hb (by decide)
      simp [this]
  | cons c u =>
    simp only [List.cons_append, List.head?_cons, List.drop_succ_cons, List.drop_zero]
    rw [head?_any_append_ws isDigit u w isDigit_of_ws hw]

theorem startsLiteral_append_ws (u w : Str) (hw : ∀ x ∈ w, isWhiteSpace x = true) :
    startsLiteral (u ++ w) = startsLiteral u := by
  unfold startsLiteral
  have hplus := head?_eq_append_ws '+' u w (by decide) hw
  have hminus := head?_eq_append_ws '-' u w (by decide) hw
  cases u with
  | nil =>
    have h1 : ¬ ((([] : Str) ++ w).head? = some '+' ∨ (([] : Str) ++ w).head? = some '-') := by
      rw [hplus, hminus]; simp
    rw [if_neg h1, if_neg (by simp)]
    exact startsUnsigned_append_ws [] w hw
  | cons c u =>
    simp only [List.cons_append, List.head?_cons, List.drop_succ_cons, List.drop_zero]
    split_ifs
    · exact startsUnsigned_append_ws u w hw
    · exact startsUnsigned_append_ws (c :: u) w hw

theorem parseFloat_trim_isNaN (s : Str) : (parseFloat (trim s)).isNaN = (parseFloat s).isNaN := by
  rw [parseFloat_isNaN, parseFloat_isNaN, trimStart_trim]
  obtain ⟨w, hw, hall⟩ := rdropWhile_append_rest isWhiteSpace (trimStart s)
  have h : trimStart s = trim s ++ w := hw
  rw [h, startsLiteral_append_ws _ _ hall]

/-! ## Splitting and joining -/

theorem joinWith_cons_cons (sep : Char) (x y : Str) (rest : List Str) :
    joinWith sep (x :: y :: rest) = x ++ sep :: joinWith sep (y :: rest) := rfl

theorem joinWith_cons_of_ne_nil (sep : Char) (x : Str) (xs : List Str) (h : xs ≠ []) :
    joinWith sep (x :: xs) = x ++ sep :: joinWith sep xs := by
  cases xs with
  | nil => exact absurd rfl h
  | cons y rest => rfl

theorem joinWith_consHead (sep c : Char) (xs : List Str) (h : xs ≠ []) :
    joinWith sep (consHead c xs) = c :: joinWith sep xs := by
  cases xs with
  | nil => exact absurd rfl h
  | cons p ps =>
    cases ps with
    | nil => rfl
    | cons q qs => rfl

theorem joinWith_split (sep : Char) (s : Str) : joinWith sep (split sep s) = s := by
  induction s with
  | nil => rfl
  | cons c cs ih =>
    by_cases h : c = sep
    · rw [split, if_pos h, joinWith_cons_of_ne_nil _ _ _ (split_ne_nil sep cs), ih, h]
      rfl
    · rw [split, if_neg h, joinWith_consHead _ _ _ (split_ne_nil sep cs), ih]

theorem split_of_not_mem (sep : Char) (x : Str) (h : sep ∉ x) : split sep x = [x] := by
  induction x with
  | nil => rfl
  | cons c cs ih =>
    have hc : c ≠ sep := fun e => h (by simp [e])
    have hcs : sep ∉ cs := fun e => h (List.mem_cons_of_mem _ e)
    rw [split, if_neg hc, ih hcs]
    rfl

theorem split_append_sep (sep : Char) (x r : Str) (h : sep ∉ x) :
    split sep (x ++ sep :: r) = x :: split sep r := by
  induction x with
  | nil => simp [split]
  | cons c cs ih =>
    have hc : c ≠ sep := fun e => h (by simp [e])
    have hcs : sep ∉ cs := fun e => h (List.mem_cons_of_mem _ e)
    rw [List.cons_append, split, if_neg hc, ih hcs]
    rfl

theorem split_joinWith (sep : Char) (xs : List Str) (hne : xs ≠ [])
    (h : ∀ x ∈ xs, sep ∉ x) : split sep (joinWith sep xs) = xs := by
  induction xs with
  | nil => exact absurd rfl hne
  | cons x rest ih =>
    cases rest with
    | nil => exact split_of_not_mem sep x (h x (by simp))
    | cons y ys =>
      rw [joinWith_cons_cons, split_append_sep sep x _ (h x (by simp)),
        ih (by simp) (fun z hz => h z (List.mem_cons_of_mem _ hz))]

theorem not_mem_of_mem_split (sep : Char) (s x : Str) (hx : x ∈ split sep s) : sep ∉ x := by
  induction s generalizing x with
  | nil =>
    simp [split] at hx
    subst hx
    simp
  | cons c cs ih =>
    by_cases h : c = sep
    · rw [split, if_pos h] at hx
      rcases List.mem_cons.1 hx with rfl | hx'
      · simp
      · exact ih x hx'
    · rw [split, if_neg h] at hx
      cases hs : split sep cs with
      | nil => exact absurd hs (split_ne_nil sep cs)
      | cons p ps =>
        rw [hs] at hx
        rcases List.mem_cons.1 hx with rfl | hx'
        · intro hmem
          rcases List.mem_cons.1 hmem with e | e
          · exact h e.symm
          · exact ih p (by rw [hs]; simp) e
        · exact ih x (by rw [hs]; exact List.mem_cons_of_mem _ hx')

theorem count_joinWith (sep c : Char) (xs : List Str) :
    (joinWith sep xs).count c =
      (xs.map (fun x => x.count c)).sum + (if c = sep then xs.length - 1 else 0) := by
  induction xs with
  | nil => simp [joinWith]
  | cons x rest ih =>
    cases rest with
    | nil => simp [joinWith]
    | cons y ys =>
      rw [joinWith_cons_cons, List.count_append, List.count_cons, ih]
      by_cases hc : c = sep
      · subst hc
        simp
        omega
      · have : (sep == c) = false := by
          rw [beq_eq_false_iff_ne]; exact fun e => hc e.symm
        simp [hc, this]

theorem count_eq_sum_split (sep c : Char) (s : Str) (hc : c ≠ sep) :
    s.count c = ((split sep s).map (fun x => x.count c)).sum := by
  conv_lhs => rw [← joinWith_split sep s]
  rw [count_joinWith, if_neg hc]
  rfl

theorem sum_map_le_sum_map {α : Type} (f g : α → Nat) (l : List α) (h : ∀ x ∈ l, f x ≤ g x) :
    (l.map f).sum ≤ (l.map g).sum := by
  induction l with
  | nil => simp
  | cons x xs ih =>
    simp only [List.map_cons, List.sum_cons]
    have h1 := h x (by simp)
    have h2 := ih (fun y hy => h y (List.mem_cons_of_mem _ hy))
    omega

theorem sum_map_eq_zero {α : Type} (f : α → Nat) (l : List α) (h : ∀ x ∈ l, f x = 0) :
    (l.map f).sum = 0 := by
  induction l with
  | nil => simp
  | cons x xs ih =>
    simp only [List.map_cons, List.sum_cons]
    rw [h x (by simp), ih (fun y hy => h y (List.mem_cons_of_mem _ hy))]

/-! ## A line written back -/

theorem count_rewriteLine_delim (d : Char) (l : Str) :
    (rewriteLine d l).count d = l.count d := by
  unfold rewriteLine
  rw [count_joinWith, if_pos rfl, List.map_map, List.length_map, length_split]
  rw [sum_map_eq_zero]
  · simp
  · intro x hx
    simp only [Function.comp]
    have h0 : x.count d = 0 := List.count_eq_zero.2 (not_mem_of_mem_split d l x hx)
    have := count_trim_le d x
    omega

theorem count_rewriteLine_le (d c : Char) (l : Str) :
    (rewriteLine d l).count c ≤ l.count c := by
  by_cases hc : c = d
  · subst hc
    rw [count_rewriteLine_delim]
  · unfold rewriteLine
    rw [count_joinWith, if_neg hc, count_eq_sum_split d c l hc, List.map_map]
    simp only [Nat.add_zero]
    exact sum_map_le_sum_map _ _ _ (fun x _ => count_trim_le c x)

theorem count_rewriteLine_eq (d c : Char) (l : Str) (hc : isWhiteSpace c = false) :
    (rewriteLine d l).count c = l.count c := by
  by_cases hcd : c = d
  · subst hcd
    rw [count_rewriteLine_delim]
  · unfold rewriteLine
    rw [count_joinWith, if_neg hcd, count_eq_sum_split d c l hcd, List.map_map]
    simp only [Nat.add_zero]
    congr 1
    apply List.map_congr_left
    intro x _
    exact count_trim_eq c x hc

theorem not_mem_rewriteLine (d c : Char) (l : Str) (h : c ∉ l) : c ∉ rewriteLine d l := by
  rw [← List.count_eq_zero] at h ⊢
  have := count_rewriteLine_le d c l
  omega

theorem nonBlank_rewriteLine (d : Char) (l : Str) (h : nonBlank l = true) :
    nonBlank (rewriteLine d l) = true := by
  rw [nonBlank_iff] at h ⊢
  obtain ⟨c, hc, hws⟩ := h
  refine ⟨c, ?_, hws⟩
  rw [← List.count_pos_iff, count_rewriteLine_eq d c l hws]
  exact List.count_pos_iff.2 hc

theorem split_rewriteLine (d : Char) (l : Str) :
    split d (rewriteLine d l) = (split d l).map trim := by
  unfold rewriteLine
  apply split_joinWith
  · simp [split_ne_nil]
  · intro x hx
    obtain ⟨y, hy, rfl⟩ := List.mem_map.1 hx
    intro hmem
    exact not_mem_of_mem_split d l y hy (mem_of_mem_trim d y hmem)

/-! ## The prepared text -/

theorem splitLines_eq_split (s : Str) (h : '\r' ∉ s) : splitLines s = split '\n' s := by
  induction s with
  | nil => rfl
  | cons c cs ih =>
    have hc : c ≠ '\r' := fun e => h (by simp [e])
    have hcs : '\r' ∉ cs := fun e => h (List.mem_cons_of_mem _ e)
    cases cs with
    | nil =>
      by_cases hn : c = '\n'
      · subst hn; rfl
      · simp [splitLines, split, hn, consHead]
    | cons d ds =>
      rw [splitLines]
      by_cases hn : c = '\n'
      · rw [if_pos hn, ih hcs]
        conv_rhs => rw [split, if_pos hn]
      · rw [if_neg hn, if_neg (fun hh => hc hh.1), ih hcs]
        conv_rhs => rw [split, if_neg hn]

theorem replaceCRLF_of_not_mem (s : Str) (h : '\r' ∉ s) : replaceCRLF s = s := by
  induction s with
  | nil => rfl
  | cons c cs ih =>
    have hc : c ≠ '\r' := fun e => h (by simp [e])
    have hcs : '\r' ∉ cs := fun e => h (List.mem_cons_of_mem _ e)
    cases cs with
    | nil => rfl
    | cons d ds => rw [replaceCRLF, if_neg (fun hh => hc hh.1), ih hcs]

theorem replaceCR_of_not_mem (s : Str) (h : '\r' ∉ s) : replaceCR s = s := by
  unfold replaceCR
  conv_rhs => rw [← List.map_id s]
  apply List.map_congr_left
  intro c hc
  have : c ≠ '\r' := fun e => h (e ▸ hc)
  simp [this]

theorem mem_replaceCRLF (c : Char) (s : Str) (h : c ∈ replaceCRLF s) : c ∈ s ∨ c = '\n' := by
  induction s using replaceCRLF.induct with
  | case1 => simp [replaceCRLF] at h
  | case2 x => left; simpa [replaceCRLF] using h
  | case3 x y rest hxy ih =>
    rw [replaceCRLF, if_pos hxy] at h
    rcases List.mem_cons.1 h with e | e
    · right; exact e
    · rcases ih e with e' | e'
      · left; exact List.mem_cons_of_mem _ (List.mem_cons_of_mem _ e')
      · right; exact e'
  | case4 x y rest hxy ih =>
    rw [replaceCRLF, if_neg hxy] at h
    rcases List.mem_cons.1 h with e | e
    · left; simp [e]
    · rcases ih e with e' | e'
      · left; exact List.mem_cons_of_mem _ e'
      · right; exact e'

theorem mem_replaceCR (c : Char) (s : Str) (h : c ∈ replaceCR s) :
    (c ∈ s ∨ c = '\n') ∧ c ≠ '\r' := by
  unfold replaceCR at h
  obtain ⟨x, hx, rfl⟩ := List.mem_map.1 h
  by_cases hr : x = '\r'
  · simp [hr]
  · simp [hr, hx]

theorem mem_stripBOM (c : Char) (s : Str) (h : c ∈ stripBOM s) : c ∈ s := by
  cases s with
  | nil => simp [stripBOM] at h
  | cons x xs =>
    simp only [stripBOM] at h
    split_ifs at h
    · exact List.mem_cons_of_mem _ h
    · exact h

theorem mem_prepare (c : Char) (text : Str) (h : c ∈ prepare text) :
    (c ∈ text ∨ c = '\n') ∧ c ≠ '\r' := by
  unfold prepare at h
  obtain ⟨h1, h2⟩ := mem_replaceCR c _ (mem_stripBOM c _ h)
  refine ⟨?_, h2⟩
  rcases h1 with h1 | h1
  · exact mem_replaceCRLF c text h1
  · right; exact h1

theorem prepare_of_clean (s : Str) (hr : '\r' ∉ s)
    (hb : ∀ c cs, s = c :: cs → c.toNat ≠ 0xFEFF) : prepare s = s := by
  unfold prepare
  rw [replaceCRLF_of_not_mem s hr, replaceCR_of_not_mem s hr]
  cases s with
  | nil => rfl
  | cons c cs => simp [stripBOM, hb c cs rfl]

theorem mem_joinWith (sep c : Char) (xs : List Str) (h : c ∈ joinWith sep xs) :
    c = sep ∨ ∃ x ∈ xs, c ∈ x := by
  induction xs with
  | nil => simp [joinWith] at h
  | cons x rest ih =>
    cases rest with
    | nil => right; exact ⟨x, by simp, by simpa [joinWith] using h⟩
    | cons y ys =>
      rw [joinWith_cons_cons] at h
      rcases List.mem_append.1 h with e | e
      · right; exact ⟨x, by simp, e⟩
      · rcases List.mem_cons.1 e with e' | e'
        · left; exact e'
        · rcases ih e' with e'' | ⟨z, hz, hcz⟩
          · left; exact e''
          · right; exact ⟨z, List.mem_cons_of_mem _ hz, hcz⟩

theorem mem_joinWith_of_mem (sep c : Char) (xs : List Str) (x : Str) (hx : x ∈ xs)
    (hc : c ∈ x) : c ∈ joinWith sep xs := by
  induction xs with
  | nil => simp at hx
  | cons y rest ih =>
    cases rest with
    | nil =>
      simp at hx
      subst hx
      simpa [joinWith] using hc
    | cons z zs =>
      rw [joinWith_cons_cons]
      rcases List.mem_cons.1 hx with e | e
      · subst e; exact List.mem_append_left _ hc
      · exact List.mem_append_right _ (List.mem_cons_of_mem _ (ih e))

theorem mem_of_mem_piece (sep c : Char) (s x : Str) (hx : x ∈ split sep s) (hc : c ∈ x) :
    c ∈ s := by
  rw [← joinWith_split sep s]
  exact mem_joinWith_of_mem sep c _ x hx hc

/-- The first character of the string, if any, is not the byte-order mark. -/
theorem head_joinWith_ne_bom (sep : Char) (x : Str) (xs : List Str)
    (hsep : sep.toNat ≠ 0xFEFF) (hx : ∀ c cs, x = c :: cs → c.toNat ≠ 0xFEFF) :
    ∀ c cs, joinWith sep (x :: xs) = c :: cs → c.toNat ≠ 0xFEFF := by
  intro c cs h
  cases xs with
  | nil => exact hx c cs h
  | cons y ys =>
    rw [joinWith_cons_cons] at h
    cases x with
    | nil =>
      simp only [List.nil_append, List.cons.injEq] at h
      rw [← h.1]; exact hsep
    | cons a as =>
      simp only [List.cons_append, List.cons.injEq] at h
      rw [← h.1]; exact hx a as rfl

theorem head_trim_ne_bom (x : Str) : ∀ c cs, trim x = c :: cs → c.toNat ≠ 0xFEFF := by
  intro c cs h hc
  have hws := trim_head x c cs h
  have : isWhiteSpace c = true := by
    unfold isWhiteSpace
    simp [hc]
  rw [this] at hws
  exact absurd hws (by simp)

theorem head_rewriteLine_ne_bom (d : Char) (l : Str) (hd : d.toNat ≠ 0xFEFF) :
    ∀ c cs, rewriteLine d l = c :: cs → c.toNat ≠ 0xFEFF := by
  unfold rewriteLine
  cases hs : split d l with
  | nil => exact absurd hs (split_ne_nil d l)
  | cons x xs =>
    rw [List.map_cons]
    exact head_joinWith_ne_bom d (trim x) _ hd (head_trim_ne_bom x)

theorem detectDelimiter_cases (text : Str) :
    detectDelimiter text = ',' ∨ detectDelimiter text = ';' ∨ detectDelimiter text = '\t' := by
  unfold detectDelimiter
  simp only [reduceKeys, List.foldl_cons, List.foldl_nil]
  split_ifs <;> simp

/-! ## Texts of white space only -/

theorem lines_blank_of_whitespace (text : Str) (h : ∀ c ∈ text, isWhiteSpace c = true) :
    (split '\n' (prepare text)).filter nonBlank = [] := by
  rw [List.filter_eq_nil_iff]
  intro l hl hnb
  obtain ⟨c, hc, hws⟩ := (nonBlank_iff l).1 hnb
  have hcP : c ∈ prepare text := mem_of_mem_piece '\n' c _ l hl hc
  rcases (mem_prepare c text hcP).1 with e | e
  · rw [h c e] at hws
    exact absurd hws (by simp)
  · rw [e] at hws
    exact absurd hws (by decide)

theorem parseCsv_of_whitespace (text : Str) (h : ∀ c ∈ text, isWhiteSpace c = true) :
    parseCsv text = ⟨some [], []⟩ :=
  parseCsv_nil text (lines_blank_of_whitespace text h)

/-! ## Parsing a table written back -/

theorem sampleLines_of_not_mem (s : Str) (h : '\r' ∉ s) :
    sampleLines s = (split '\n' s).filter nonBlank := by
  unfold sampleLines
  rw [splitLines_eq_split s h]

theorem delimiter_ne_bom (d : Char) (hd : d = ',' ∨ d = ';' ∨ d = '\t') : d.toNat ≠ 0xFEFF := by
  rcases hd with rfl | rfl | rfl <;> decide

theorem rewritten_text (d : Char) (L : List Str) (hne : L ≠ [])
    (hd : d = ',' ∨ d = ';' ∨ d = '\t')
    (hL : ∀ l ∈ L, '\n' ∉ l ∧ '\r' ∉ l ∧ nonBlank l = true) :
    prepare (joinWith '\n' (L.map (rewriteLine d))) = joinWith '\n' (L.map (rewriteLine d)) ∧
    (split '\n' (joinWith '\n' (L.map (rewriteLine d)))).filter nonBlank =
      L.map (rewriteLine d) ∧
    sampleLines (joinWith '\n' (L.map (rewriteLine d))) = L.map (rewriteLine d) := by
  have hcr : '\r' ∉ joinWith '\n' (L.map (rewriteLine d)) := by
    intro hmem
    rcases mem_joinWith _ _ _ hmem with e | ⟨x, hx, hcx⟩
    · exact absurd e (by decide)
    · obtain ⟨l, hl, rfl⟩ := List.mem_map.1 hx
      exact not_mem_rewriteLine d '\r' l (hL l hl).2.1 hcx
  have hsplit : split '\n' (joinWith '\n' (L.map (rewriteLine d))) = L.map (rewriteLine d) := by
    apply split_joinWith
    · simpa using hne
    · intro x hx
      obtain ⟨l, hl, rfl⟩ := List.mem_map.1 hx
      exact not_mem_rewriteLine d '\n' l (hL l hl).1
  have hfilter : (L.map (rewriteLine d)).filter nonBlank = L.map (rewriteLine d) := by
    rw [List.filter_eq_self]
    intro x hx
    obtain ⟨l, hl, rfl⟩ := List.mem_map.1 hx
    exact nonBlank_rewriteLine d l (hL l hl).2.2
  refine ⟨?_, ?_, ?_⟩
  · apply prepare_of_clean _ hcr
    cases L with
    | nil => exact absurd rfl hne
    | cons l ls =>
      rw [List.map_cons]
      exact head_joinWith_ne_bom '\n' _ _ (by decide)
        (head_rewriteLine_ne_bom d l (delimiter_ne_bom d hd))
  · rw [hsplit, hfilter]
  · rw [sampleLines_of_not_mem _ hcr, hsplit, hfilter]

theorem occurrences_rewrite_le (d c : Char) (L : List Str) :
    occurrences (L.map (rewriteLine d)) c ≤ occurrences L c := by
  unfold occurrences
  rw [← List.map_take, List.map_map]
  exact sum_map_le_sum_map _ _ _ (fun l _ => count_rewriteLine_le d c l)

theorem occurrences_rewrite_eq (d c : Char) (L : List Str)
    (hc : c = d ∨ isWhiteSpace c = false) :
    occurrences (L.map (rewriteLine d)) c = occurrences L c := by
  unfold occurrences
  rw [← List.map_take, List.map_map]
  congr 1
  apply List.map_congr_left
  intro l _
  rcases hc with rfl | hc
  · exact count_rewriteLine_delim _ l
  · exact count_rewriteLine_eq d c l hc

theorem reduceKeys_stable (sc sc' : Char → Nat) (h1 : sc' ',' = sc ',') (h2 : sc' ';' = sc ';')
    (h3 : sc' '\t' ≤ sc '\t')
    (h4 : reduceKeys sc ',' [';', '\t'] = '\t' → sc' '\t' = sc '\t') :
    reduceKeys sc' ',' [';', '\t'] = reduceKeys sc ',' [';', '\t'] := by
  simp only [reduceKeys, List.foldl_cons, List.foldl_nil] at h4 ⊢
  rw [h1, h2]
  by_cases hab : sc ',' > sc ';'
  · simp only [hab, if_true] at h4 ⊢
    rw [h1]
    by_cases ht : sc ',' > sc '\t'
    · have ht' : sc ',' > sc' '\t' := by omega
      simp [ht, ht']
    · simp only [ht, if_false] at h4 ⊢
      rw [h4 trivial]
      simp [ht]
  · simp only [hab, if_false] at h4 ⊢
    rw [h2]
    by_cases ht : sc ';' > sc '\t'
    · have ht' : sc ';' > sc' '\t' := by omega
      simp [ht, ht']
    · simp only [ht, if_false] at h4 ⊢
      rw [h4 trivial]
      simp [ht]

theorem detectDelimiter_rewritten (P : Str) (hcr : '\r' ∉ P)
    (hne : (split '\n' P).filter nonBlank ≠ []) :
    detectDelimiter
        (joinWith '\n' (((split '\n' P).filter nonBlank).map (rewriteLine (detectDelimiter P)))) =
      detectDelimiter P := by
  have hL : ∀ l ∈ (split '\n' P).filter nonBlank, '\n' ∉ l ∧ '\r' ∉ l ∧ nonBlank l = true := by
    intro l hl
    obtain ⟨hl1, hl2⟩ := List.mem_filter.1 hl
    exact ⟨not_mem_of_mem_split '\n' P l hl1,
      fun h => hcr (mem_of_mem_piece '\n' '\r' P l hl1 h), hl2⟩
  have hsl := (rewritten_text (detectDelimiter P) _ hne (detectDelimiter_cases P) hL).2.2
  have hsP : sampleLines P = (split '\n' P).filter nonBlank := sampleLines_of_not_mem P hcr
  have hne' : sampleLines (joinWith '\n'
      (((split '\n' P).filter nonBlank).map (rewriteLine (detectDelimiter P)))) ≠ [] := by
    rw [hsl]; simpa using hne
  rw [detectDelimiter_of_lines _ hne', hsl]
  conv_rhs => rw [detectDelimiter_of_lines P (by rw [hsP]; exact hne), hsP]
  apply reduceKeys_stable
  · rw [score_eq_occurrences, score_eq_occurrences]
    exact occurrences_rewrite_eq _ _ _ (Or.inr (by decide))
  · rw [score_eq_occurrences, score_eq_occurrences]
    exact occurrences_rewrite_eq _ _ _ (Or.inr (by decide))
  · rw [score_eq_occurrences, score_eq_occurrences]
    exact occurrences_rewrite_le _ _ _
  · intro htab
    rw [score_eq_occurrences, score_eq_occurrences]
    apply occurrences_rewrite_eq
    left
    rw [detectDelimiter_of_lines P (by rw [hsP]; exact hne), hsP]
    exact htab.symm

theorem cellTransform_of_no_quote (x : Str) (h : '"' ∉ x) : cellTransform x = trim x := by
  unfold cellTransform
  have : ['"'].isPrefixOf x = false := by
    cases x with
    | nil => rfl
    | cons c cs =>
      have hc : c ≠ '"' := fun e => h (by simp [e])
      have : ('"' == c) = false := by
        rw [beq_eq_false_iff_ne]; exact fun e => hc e.symm
      simp [List.isPrefixOf, this]
  simp [this]

theorem map_cellTransform_split (d : Char) (l : Str) (h : '"' ∉ l) :
    (split d l).map cellTransform = (split d l).map trim := by
  apply List.map_congr_left
  intro x hx
  exact cellTransform_of_no_quote x (fun hq => h (mem_of_mem_piece d '"' l x hx hq))

theorem map_cellTransform_rewrite (d : Char) (l : Str) (h : '"' ∉ l) :
    (split d (rewriteLine d l)).map cellTransform = (split d l).map trim := by
  rw [map_cellTransform_split d _ (not_mem_rewriteLine d '"' l h), split_rewriteLine,
    List.map_map]
  apply List.map_congr_left
  intro x _
  exact trim_trim x

theorem joinWith_map_cellTransform (d : Char) (l : Str) (h : '"' ∉ l) :
    joinWith d ((split d l).map cellTransform) = rewriteLine d l := by
  rw [map_cellTransform_split d l h]
  rfl

theorem any_isNaN_rewrite (d : Char) (l : Str) :
    (split d (rewriteLine d l)).any (fun cell => (parseFloat cell).isNaN) =
      (split d l).any (fun cell => (parseFloat cell).isNaN) := by
  rw [split_rewriteLine, List.any_map]
  congr 1
  funext x
  exact parseFloat_trim_isNaN x

theorem collectRows_rewrite (d : Char) (X : List Str)
    (hX : ∀ l ∈ X, nonBlank l = true ∧ '"' ∉ l) :
    collectRows d (X.map (rewriteLine d)) = collectRows d X := by
  rw [collectRows_of_nonBlank d X (fun l hl => (hX l hl).1),
    collectRows_of_nonBlank d (X.map (rewriteLine d))
      (fun x hx => by
        obtain ⟨l, hl, rfl⟩ := List.mem_map.1 hx
        exact nonBlank_rewriteLine d l (hX l hl).1),
    List.map_map]
  apply List.map_congr_left
  intro l hl
  simp only [Function.comp]
  rw [map_cellTransform_rewrite d l (hX l hl).2, map_cellTransform_split d l (hX l hl).2]

theorem collectRows_joined (d : Char) (X : List Str)
    (hX : ∀ l ∈ X, nonBlank l = true ∧ '"' ∉ l) :
    (collectRows d X).map (joinWith d) = X.map (rewriteLine d) := by
  rw [collectRows_of_nonBlank d X (fun l hl => (hX l hl).1), List.map_map]
  apply List.map_congr_left
  intro l hl
  simp only [Function.comp]
  exact joinWith_map_cellTransform d l (hX l hl).2

theorem serialize_blank (d : Char) : serialize d ⟨some [], []⟩ = [] := rfl

/-- C5: for every text without a double-quote character, writing the table
`parseCsv` returns back as text (the header line when headers are present, then
one line per row, cells joined by the delimiter detected for the text, lines
joined by `\n`) and parsing that text again gives the same headers and the same
rows. -/
theorem parseCsv_reparse (text : Str) (hq : '"' ∉ text) :
    parseCsv (serialize (detectDelimiter (prepare text)) (parseCsv text)) = parseCsv text := by
  have hcr : '\r' ∉ prepare text := fun h => (mem_prepare _ _ h).2 rfl
  have hqP : '"' ∉ prepare text := by
    intro h
    rcases (mem_prepare _ _ h).1 with e | e
    · exact hq e
    · exact absurd e (by decide)
  cases hl : (split '\n' (prepare text)).filter nonBlank with
  | nil =>
    rw [parseCsv_nil text hl, serialize_blank]
    decide
  | cons first rest =>
    have hLine : ∀ l ∈ first :: rest,
        '\n' ∉ l ∧ '\r' ∉ l ∧ nonBlank l = true ∧ '"' ∉ l := by
      intro l hmem
      rw [← hl] at hmem
      obtain ⟨h1, h2⟩ := List.mem_filter.1 hmem
      exact ⟨not_mem_of_mem_split '\n' _ l h1,
        fun h => hcr (mem_of_mem_piece '\n' '\r' _ l h1 h), h2,
        fun h => hqP (mem_of_mem_piece '\n' '"' _ l h1 h)⟩
    have hRest : ∀ l ∈ rest, nonBlank l = true ∧ '"' ∉ l := fun l hmem =>
      ⟨(hLine l (List.mem_cons_of_mem _ hmem)).2.2.1, (hLine l (List.mem_cons_of_mem _ hmem)).2.2.2⟩
    have hAll : ∀ l ∈ first :: rest, nonBlank l = true ∧ '"' ∉ l := fun l hmem =>
      ⟨(hLine l hmem).2.2.1, (hLine l hmem).2.2.2⟩
    have hser : serialize (detectDelimiter (prepare text)) (parseCsv text) =
        joinWith '\n' ((first :: rest).map (rewriteLine (detectDelimiter (prepare text)))) := by
      rw [parseCsv_cons text first rest hl]
      by_cases hany : (split (detectDelimiter (prepare text)) first).any
          (fun cell => (parseFloat cell).isNaN) = true
      · simp only [hany, if_true, List.drop_succ_cons, List.drop_zero, serialize]
        rw [collectRows_joined _ rest hRest]
        rfl
      · simp only [hany, if_false, List.drop_zero, serialize, Bool.false_eq_true]
        rw [collectRows_joined _ (first :: rest) hAll]
        rfl
    obtain ⟨hprep, hlines, -⟩ := rewritten_text (detectDelimiter (prepare text)) (first :: rest)
      (by simp) (detectDelimiter_cases _) (fun l hmem => ⟨(hLine l hmem).1, (hLine l hmem).2.1,
        (hLine l hmem).2.2.1⟩)
    have hdet : detectDelimiter (joinWith '\n'
        ((first :: rest).map (rewriteLine (detectDelimiter (prepare text))))) =
        detectDelimiter (prepare text) := by
      have := detectDelimiter_rewritten (prepare text) hcr (by rw [hl]; simp)
      rwa [hl] at this
    rw [hser]
    have hlines' : (split '\n' (prepare (joinWith '\n'
        ((first :: rest).map (rewriteLine (detectDelimiter (prepare text))))))).filter nonBlank =
        rewriteLine (detectDelimiter (prepare text)) first ::
          rest.map (rewriteLine (detectDelimiter (prepare text))) := by
      rw [hprep, hlines]; rfl
    rw [parseCsv_cons _ _ _ hlines', parseCsv_cons text first rest hl, hprep, hdet,
      any_isNaN_rewrite, split_rewriteLine, List.map_map]
    have htrim : (trim ∘ trim) = trim := by
      funext x; exact trim_trim x
    rw [htrim]
    by_cases hany : (split (detectDelimiter (prepare text)) first).any
        (fun cell => (parseFloat cell).isNaN) = true
    · simp only [hany, if_true, List.drop_succ_cons, List.drop_zero]
      rw [collectRows_rewrite _ rest hRest]
    · simp only [hany, if_false, List.drop_zero, Bool.false_eq_true]
      rw [← List.map_cons, collectRows_rewrite _ (first :: rest) hAll]

theorem parseCsv_reparse_witness :
    '"' ∉ " item ; sales\n\n1,5 ;\t2\r\nx; 3 ".toList ∧
    serialize (detectDelimiter (prepare " item ; sales\n\n1,5 ;\t2\r\nx; 3 ".toList))
      (parseCsv " item ; sales\n\n1,5 ;\t2\r\nx; 3 ".toList) = "item;sales\n1,5;2\nx;3".toList ∧
    parseCsv (serialize (detectDelimiter (prepare " item ; sales\n\n1,5 ;\t2\r\nx; 3 ".toList))
      (parseCsv " item ; sales\n\n1,5 ;\t2\r\nx; 3 ".toList)) =
      parseCsv " item ; sales\n\n1,5 ;\t2\r\nx; 3 ".toList :=
  ⟨by decide, by decide, parseCsv_reparse " item ; sales\n\n1,5 ;\t2\r\nx; 3 ".toList (by decide)⟩

/-! ## Texts without a non-blank line -/

theorem mem_consHead (c : Char) (l : List Str) (x : Str) (hx : x ∈ consHead c l) :
    ∀ a ∈ x, a = c ∨ ∃ y ∈ l, a ∈ y := by
  intro a ha
  cases l with
  | nil =>
    simp only [consHead, List.mem_singleton] at hx
    subst hx
    left; simpa using ha
  | cons p ps =>
    simp only [consHead, List.mem_cons] at hx
    rcases hx with rfl | hx
    · rcases List.mem_cons.1 ha with e | e
      · left; exact e
      · right; exact ⟨p, by simp, e⟩
    · right; exact ⟨x, List.mem_cons_of_mem _ hx, ha⟩

theorem mem_of_mem_splitLines_aux (n : Nat) :
    ∀ s : Str, s.length ≤ n → ∀ x ∈ splitLines s, ∀ a ∈ x, a ∈ s := by
  induction n with
  | zero =>
    intro s hs x hx a ha
    have : s = [] := List.length_eq_zero.1 (by omega)
    subst this
    simp only [splitLines, List.mem_singleton] at hx
    subst hx; simp at ha
  | succ n ih =>
    intro s hs x hx a ha
    match s, hs, hx with
    | [], _, hx =>
      simp only [splitLines, List.mem_singleton] at hx
      subst hx; simp at ha
    | [c], _, hx =>
      simp only [splitLines] at hx
      split_ifs at hx
      · simp only [List.mem_cons, List.mem_singleton, or_self, List.not_mem_nil, or_false] at hx
        subst hx; simp at ha
      · simp only [List.mem_singleton] at hx
        subst hx; exact ha
    | c :: d :: cs, hs, hx =>
      simp only [List.length_cons] at hs
      rw [splitLines] at hx
      split_ifs at hx with hc hcd
      · rcases List.mem_cons.1 hx with rfl | hx
        · simp at ha
        · exact List.mem_cons_of_mem _ (ih (d :: cs) (by simp; omega) x hx a ha)
      · rcases List.mem_cons.1 hx with rfl | hx
        · simp at ha
        · exact List.mem_cons_of_mem _ (List.mem_cons_of_mem _ (ih cs (by omega) x hx a ha))
      · rcases mem_consHead c _ x hx a ha with e | ⟨y, hy, hay⟩
        · simp [e]
        · exact List.mem_cons_of_mem _ (ih (d :: cs) (by simp; omega) y hy a hay)

theorem mem_of_mem_splitLines (s x : Str) (a : Char) (hx : x ∈ splitLines s) (ha : a ∈ x) :
    a ∈ s :=
  mem_of_mem_splitLines_aux s.length s (Nat.le_refl _) x hx a ha

theorem sampleLines_of_whitespace (text : Str) (h : ∀ c ∈ text, isWhiteSpace c = true) :
    sampleLines text = [] := by
  unfold sampleLines
  rw [List.filter_eq_nil_iff]
  intro l hl hnb
  obtain ⟨c, hc, hws⟩ := (nonBlank_iff l).1 hnb
  rw [h c (mem_of_mem_splitLines text l c hl hc)] at hws
  exact absurd hws (by simp)

/-- C18: a text that has no non-blank line when split on `\n` or `\r\n` makes
`detectDelimiter` return `,`. -/
theorem detectDelimiter_blank (text : Str) (h : sampleLines text = []) :
    detectDelimiter text = ',' := by
  unfold detectDelimiter
  simp [h]

theorem detectDelimiter_blank_witness :
    sampleLines " \r\n\t;\n".toList ≠ [] ∧ sampleLines " \r\n\t \n\r".toList = [] ∧
    detectDelimiter " \r\n\t \n\r".toList = ',' :=
  ⟨by decide, by decide, detectDelimiter_blank " \r\n\t \n\r".toList (by decide)⟩

theorem detectDelimiter_of_whitespace (text : Str) (h : ∀ c ∈ text, isWhiteSpace c = true) :
    detectDelimiter text = ',' := by
  unfold detectDelimiter
  simp [sampleLines_of_whitespace text h]

/-! ## Line endings and the byte-order mark -/

theorem parseCsv_congr (t1 t2 : Str) (h : prepare t1 = prepare t2) : parseCsv t1 = parseCsv t2 := by
  unfold parseCsv
  simp only [h]

theorem not_mem_normalizeLineEndings (t : Str) : '\r' ∉ normalizeLineEndings t :=
  fun h => (mem_replaceCR _ _ h).2 rfl

theorem normalizeLineEndings_idem (t : Str) :
    normalizeLineEndings (normalizeLineEndings t) = normalizeLineEndings t := by
  have h := not_mem_normalizeLineEndings t
  show replaceCR (replaceCRLF (normalizeLineEndings t)) = normalizeLineEndings t
  rw [replaceCRLF_of_not_mem _ h, replaceCR_of_not_mem _ h]

theorem prepare_eq (t : Str) : prepare t = stripBOM (normalizeLineEndings t) := rfl

/-! ## The CRLF, CR and LF versions of a list of lines -/

theorem replaceCRLF_append_crlf (x rest : Str) (hx : '\r' ∉ x) :
    replaceCRLF (x ++ '\r' :: '\n' :: rest) = x ++ '\n' :: replaceCRLF rest := by
  induction x with
  | nil => simp [replaceCRLF]
  | cons c cs ih =>
    have hc : c ≠ '\r' := fun e => hx (by simp [e])
    have hcs : '\r' ∉ cs := fun e => hx (List.mem_cons_of_mem _ e)
    cases hcs' : cs ++ '\r' :: '\n' :: rest with
    | nil => simp at hcs'
    | cons d ds =>
      rw [List.cons_append, hcs', replaceCRLF, if_neg (fun hh => hc hh.1), ← hcs', ih hcs]
      rfl

theorem replaceCRLF_append_cr (x rest : Str) (hx : '\r' ∉ x) (hrest : rest.head? ≠ some '\n') :
    replaceCRLF (x ++ '\r' :: rest) = x ++ '\r' :: replaceCRLF rest := by
  induction x with
  | nil =>
    cases rest with
    | nil => rfl
    | cons d ds =>
      have hd : d ≠ '\n' := fun e => hrest (by simp [e])
      simp only [List.nil_append]
      rw [replaceCRLF, if_neg (fun hh => hd hh.2)]
  | cons c cs ih =>
    have hc : c ≠ '\r' := fun e => hx (by simp [e])
    have hcs : '\r' ∉ cs := fun e => hx (List.mem_cons_of_mem _ e)
    cases hcs' : cs ++ '\r' :: rest with
    | nil => simp at hcs'
    | cons d ds =>
      rw [List.cons_append, hcs', replaceCRLF, if_neg (fun hh => hc hh.1), ← hcs', ih hcs]
      rfl

theorem head?_joinText_ne (s : Char) (ss : Str) (L : List Str) (a : Char) (hs : s ≠ a)
    (hL : ∀ l ∈ L, a ∉ l) : (joinText (s :: ss) L).head? ≠ some a := by
  cases L with
  | nil => simp [joinText]
  | cons x rest =>
    have hx : a ∉ x := hL x (by simp)
    intro h
    cases x with
    | nil =>
      cases rest with
      | nil => simp [joinText] at h
      | cons y ys =>
        simp only [joinText, List.nil_append, List.cons_append, List.head?_cons,
          Option.some.injEq] at h
        exact hs h
    | cons c cs =>
      have hc : c = a := by
        cases rest with
        | nil => simpa [joinText] using h
        | cons y ys => simpa [joinText] using h
      exact hx (by simp [hc])

theorem joinText_cons_cons (sep x y : Str) (rest : List Str) :
    joinText sep (x :: y :: rest) = x ++ sep ++ joinText sep (y :: rest) := rfl

theorem normalize_crlf_lines (L : List Str) (hL : ∀ l ∈ L, '\r' ∉ l) :
    normalizeLineEndings (joinText ['\r', '\n'] L) = joinWith '\n' L := by
  have h : replaceCRLF (joinText ['\r', '\n'] L) = joinWith '\n' L := by
    induction L with
    | nil => rfl
    | cons x rest ih =>
      cases rest with
      | nil => exact replaceCRLF_of_not_mem x (hL x (by simp))
      | cons y ys =>
        rw [joinText_cons_cons, List.append_assoc]
        show replaceCRLF (x ++ '\r' :: '\n' :: joinText ['\r', '\n'] (y :: ys)) = _
        rw [replaceCRLF_append_crlf x _ (hL x (by simp)),
          ih (fun l hl => hL l (List.mem_cons_of_mem _ hl))]
        rfl
  have hcr : '\r' ∉ joinWith '\n' L := by
    intro hmem
    rcases mem_joinWith _ _ _ hmem with e | ⟨x, hx, hcx⟩
    · exact absurd e (by decide)
    · exact hL x hx hcx
  unfold normalizeLineEndings
  rw [h, replaceCR_of_not_mem _ hcr]

theorem replaceCR_joinText (L : List Str) (hL : ∀ l ∈ L, '\r' ∉ l) :
    replaceCR (joinText ['\r'] L) = joinWith '\n' L := by
  induction L with
  | nil => rfl
  | cons x rest ih =>
    cases rest with
    | nil => exact replaceCR_of_not_mem x (hL x (by simp))
    | cons y ys =>
      rw [joinText_cons_cons, List.append_assoc]
      unfold replaceCR at ih ⊢
      rw [List.map_append, List.map_append, ih (fun l hl => hL l (List.mem_cons_of_mem _ hl))]
      have hx := replaceCR_of_not_mem x (hL x (by simp))
      unfold replaceCR at hx
      rw [hx]
      rfl

theorem normalize_cr_lines (L : List Str) (hL : ∀ l ∈ L, '\r' ∉ l ∧ '\n' ∉ l) :
    normalizeLineEndings (joinText ['\r'] L) = joinWith '\n' L := by
  have h : replaceCRLF (joinText ['\r'] L) = joinText ['\r'] L := by
    induction L with
    | nil => rfl
    | cons x rest ih =>
      cases rest with
      | nil => exact replaceCRLF_of_not_mem x (hL x (by simp)).1
      | cons y ys =>
        rw [joinText_cons_cons, List.append_assoc]
        show replaceCRLF (x ++ '\r' :: joinText ['\r'] (y :: ys)) = _
        rw [replaceCRLF_append_cr x _ (hL x (by simp)).1
            (head?_joinText_ne '\r' [] (y :: ys) '\n' (by decide)
              (fun l hl => (hL l (List.mem_cons_of_mem _ hl)).2)),
          ih (fun l hl => hL l (List.mem_cons_of_mem _ hl))]
        rfl
  unfold normalizeLineEndings
  rw [h, replaceCR_joinText L (fun l hl => (hL l hl).1)]

theorem normalize_lf_lines (L : List Str) (hL : ∀ l ∈ L, '\r' ∉ l) :
    normalizeLineEndings (joinWith '\n' L) = joinWith '\n' L := by
  have hcr : '\r' ∉ joinWith '\n' L := by
    intro hmem
    rcases mem_joinWith _ _ _ hmem with e | ⟨x, hx, hcx⟩
    · exact absurd e (by decide)
    · exact hL x hx hcx
  unfold normalizeLineEndings
  rw [replaceCRLF_of_not_mem _ hcr, replaceCR_of_not_mem _ hcr]

theorem parseCsv_line_versions (L : List Str) (hL : ∀ l ∈ L, '\r' ∉ l ∧ '\n' ∉ l) :
    parseCsv (joinText ['\r', '\n'] L) = parseCsv (joinWith '\n' L) ∧
    parseCsv (joinText ['\r'] L) = parseCsv (joinWith '\n' L) := by
  have h1 := normalize_crlf_lines L (fun l hl => (hL l hl).1)
  have h2 := normalize_cr_lines L hL
  have h3 := normalize_lf_lines L (fun l hl => (hL l hl).1)
  exact ⟨parseCsv_congr _ _ (by rw [prepare_eq, prepare_eq, h1, h3]),
    parseCsv_congr _ _ (by rw [prepare_eq, prepare_eq, h2, h3])⟩

/-- C16: `parseCsv` gives the same table for a text and for the text with every
`\r\n` and every remaining `\r` replaced by `\n`, with the same delimiter
detected; two texts with the same such normal form (the CRLF, CR and LF
versions of one content) give the same delimiter, headers and rows; in
particular lines free of `\r` and `\n` joined by `\r\n`, by `\r` or by `\n` give
the same table. -/
theorem parseCsv_line_endings (t : Str) :
    parseCsv (normalizeLineEndings t) = parseCsv t ∧
    detectDelimiter (prepare (normalizeLineEndings t)) = detectDelimiter (prepare t) ∧
    (∀ u : Str, normalizeLineEndings u = normalizeLineEndings t →
      parseCsv u = parseCsv t ∧ detectDelimiter (prepare u) = detectDelimiter (prepare t)) ∧
    (∀ L : List Str, (∀ l ∈ L, '\r' ∉ l ∧ '\n' ∉ l) →
      parseCsv (joinText ['\r', '\n'] L) = parseCsv (joinWith '\n' L) ∧
      parseCsv (joinText ['\r'] L) = parseCsv (joinWith '\n' L)) ∧
    parseCsv "item,sales\r\nApples,1.5\r\n".toList = parseCsv "item,sales\nApples,1.5\n".toList ∧
    parseCsv "item,sales\rApples,1.5\r".toList = parseCsv "item,sales\nApples,1.5\n".toList := by
  have h1 : prepare (normalizeLineEndings t) = prepare t := by
    rw [prepare_eq, prepare_eq, normalizeLineEndings_idem]
  refine ⟨parseCsv_congr _ _ h1, by rw [h1], ?_, parseCsv_line_versions, by decide, by decide⟩
  intro u hu
  have h2 : prepare u = prepare t := by rw [prepare_eq, prepare_eq, hu]
  exact ⟨parseCsv_congr _ _ h2, by rw [h2]⟩

/-! ## The shape of the table -/

theorem parseCsv_rows_eq (text : Str) :
    (parseCsv text).rows =
      (((split '\n' (prepare text)).filter nonBlank).drop
        (if (parseCsv text).headers.isSome then 1 else 0)).map
        (fun line => (split (detectDelimiter (prepare text)) line).map cellTransform) := by
  cases hl : (split '\n' (prepare text)).filter nonBlank with
  | nil =>
    rw [parseCsv_nil text hl]
    simp
  | cons first rest =>
    have hnb : ∀ l ∈ first :: rest, nonBlank l = true := by
      rw [← hl]; exact lines_nonBlank text
    rw [parseCsv_cons text first rest hl]
    by_cases hany : (split (detectDelimiter (prepare text)) first).any
        (fun cell => (parseFloat cell).isNaN) = true
    · simp only [hany, if_true, Option.isSome_some, List.drop_succ_cons, List.drop_zero]
      rw [collectRows_of_nonBlank _ _ (fun l hl => hnb l (List.mem_cons_of_mem _ hl))]
    · simp only [hany, if_false, Option.isSome_none, List.drop_zero, Bool.false_eq_true]
      rw [collectRows_of_nonBlank _ _ hnb]

theorem parseCsv_headers_mem (text : Str) (hs : List Str) (h : Str)
    (hhs : (parseCsv text).headers = some hs) (hh : h ∈ hs) :
    ∃ line ∈ (split '\n' (prepare text)).filter nonBlank,
      ∃ x ∈ split (detectDelimiter (prepare text)) line, h = trim x := by
  cases hl : (split '\n' (prepare text)).filter nonBlank with
  | nil =>
    rw [parseCsv_nil text hl] at hhs
    simp only [Option.some.injEq] at hhs
    subst hhs
    simp at hh
  | cons first rest =>
    rw [parseCsv_cons text first rest hl] at hhs
    simp only at hhs
    split_ifs at hhs
    simp only [Option.some.injEq] at hhs
    subst hhs
    obtain ⟨x, hx, rfl⟩ := List.mem_map.1 hh
    exact ⟨first, by simp, x, hx, rfl⟩

theorem parseCsv_rows_mem (text : Str) (row : List Str) (hrow : row ∈ (parseCsv text).rows) :
    ∃ line ∈ (split '\n' (prepare text)).filter nonBlank,
      row = (split (detectDelimiter (prepare text)) line).map cellTransform := by
  rw [parseCsv_rows_eq] at hrow
  obtain ⟨line, hline, rfl⟩ := List.mem_map.1 hrow
  exact ⟨line, List.mem_of_mem_drop hline, rfl⟩

theorem mem_unescapeQuotes_aux (n : Nat) :
    ∀ s : Str, s.length ≤ n → ∀ a ∈ unescapeQuotes s, a ∈ s := by
  induction n with
  | zero =>
    intro s hs a ha
    have : s = [] := List.length_eq_zero.1 (by omega)
    subst this
    simp [unescapeQuotes] at ha
  | succ n ih =>
    intro s hs a ha
    match s, hs, ha with
    | [], _, ha => simp [unescapeQuotes] at ha
    | [c], _, ha => simpa [unescapeQuotes] using ha
    | c :: d :: cs, hs, ha =>
      simp only [List.length_cons] at hs
      rw [unescapeQuotes] at ha
      split_ifs at ha with hcd
      · rcases List.mem_cons.1 ha with e | e
        · rw [e, ← hcd.1]; simp
        · exact List.mem_cons_of_mem _ (List.mem_cons_of_mem _ (ih cs (by omega) a e))
      · rcases List.mem_cons.1 ha with e | e
        · simp [e]
        · exact List.mem_cons_of_mem _ (ih (d :: cs) (by simp; omega) a e)

theorem mem_unescapeQuotes (s : Str) (a : Char) (ha : a ∈ unescapeQuotes s) : a ∈ s :=
  mem_unescapeQuotes_aux s.length s (Nat.le_refl _) a ha

theorem mem_substring (s : Str) (i j : Int) (a : Char) (ha : a ∈ substring s i j) : a ∈ s := by
  unfold substring at ha
  exact List.mem_of_mem_drop (List.mem_of_mem_take ha)

theorem mem_cellTransform (x : Str) (a : Char) (ha : a ∈ cellTransform x) : a ∈ x := by
  unfold cellTransform at ha
  split_ifs at ha
  · exact mem_substring _ _ _ _ (mem_unescapeQuotes _ _ ha)
  · exact mem_of_mem_trim a x ha

theorem mem_line_of_mem_prepare (text line : Str) (a : Char)
    (hline : line ∈ (split '\n' (prepare text)).filter nonBlank) (ha : a ∈ line) :
    a ∈ prepare text ∧ a ≠ '\n' ∧ a ≠ '\r' := by
  have h1 := (List.mem_filter.1 hline).1
  have h2 : a ∈ prepare text := mem_of_mem_piece '\n' a _ line h1 ha
  refine ⟨h2, ?_, (mem_prepare a text h2).2⟩
  intro e
  exact not_mem_of_mem_split '\n' _ line h1 (e ▸ ha)

/-! ## Invariants of the table -/

theorem noEdgeWhiteSpace_trim (s : Str) : noEdgeWhiteSpace (trim s) := by
  constructor
  · intro c hc
    cases ht : trim s with
    | nil => rw [ht] at hc; simp at hc
    | cons a as =>
      rw [ht] at hc
      simp only [List.head?_cons, Option.some.injEq] at hc
      subst hc
      exact trim_head s a as ht
  · intro c hc
    have hne : trim s ≠ [] := by
      intro e; rw [e] at hc; simp at hc
    have hlast : (trim s).getLast hne = c := by
      rw [List.getLast?_eq_getLast _ hne] at hc
      exact Option.some.inj hc
    have := List.rdropWhile_last_not isWhiteSpace (trimStart s) hne
    rw [← hlast]
    simpa using this

theorem cellTransform_of_not_quoted (x : Str) (h : isQuoted x = false) :
    cellTransform x = trim x := by
  unfold cellTransform
  unfold isQuoted at h
  rw [if_neg (by simp [h])]

theorem not_mem_cell (text line x : Str) (a : Char)
    (hline : line ∈ (split '\n' (prepare text)).filter nonBlank)
    (hx : x ∈ split (detectDelimiter (prepare text)) line) (ha : a ∈ x) :
    a ≠ detectDelimiter (prepare text) ∧ a ≠ '\n' ∧ a ≠ '\r' := by
  have hl := mem_of_mem_piece _ a line x hx ha
  refine ⟨?_, (mem_line_of_mem_prepare text line a hline hl).2⟩
  intro e
  exact not_mem_of_mem_split _ line x hx (e ▸ ha)

/-- C19: in the table `parseCsv` returns, no header and no row cell contains the
detected delimiter, a `\n` or a `\r`; every row is a non-blank line split on the
delimiter, so it has at least one cell and as many cells as the line has
delimiters plus one; and a cell that is not quoted is stored without leading
or trailing white space. -/
theorem parseCsv_cells_clean (text : Str) :
    (∀ hs, (parseCsv text).headers = some hs → ∀ h ∈ hs,
      detectDelimiter (prepare text) ∉ h ∧ '\n' ∉ h ∧ '\r' ∉ h) ∧
    (∀ row ∈ (parseCsv text).rows, ∀ cell ∈ row,
      detectDelimiter (prepare text) ∉ cell ∧ '\n' ∉ cell ∧ '\r' ∉ cell) ∧
    (∀ row ∈ (parseCsv text).rows, row ≠ [] ∧
      ∃ line ∈ (split '\n' (prepare text)).filter nonBlank,
        row = (split (detectDelimiter (prepare text)) line).map cellTransform ∧
        row.length = line.count (detectDelimiter (prepare text)) + 1 ∧
        ∀ x ∈ split (detectDelimiter (prepare text)) line, isQuoted x = false →
          cellTransform x = trim x ∧ noEdgeWhiteSpace (cellTransform x)) := by
  refine ⟨?_, ?_, ?_⟩
  · intro hs hhs h hh
    obtain ⟨line, hline, x, hx, rfl⟩ := parseCsv_headers_mem text hs h hhs hh
    have key : ∀ a ∈ trim x, a ≠ detectDelimiter (prepare text) ∧ a ≠ '\n' ∧ a ≠ '\r' :=
      fun a ha => not_mem_cell text line x a hline hx (mem_of_mem_trim a x ha)
    exact ⟨fun hm => (key _ hm).1 rfl, fun hm => (key _ hm).2.1 rfl, fun hm => (key _ hm).2.2 rfl⟩
  · intro row hrow cell hcell
    obtain ⟨line, hline, rfl⟩ := parseCsv_rows_mem text row hrow
    obtain ⟨x, hx, rfl⟩ := List.mem_map.1 hcell
    have key : ∀ a ∈ cellTransform x,
        a ≠ detectDelimiter (prepare text) ∧ a ≠ '\n' ∧ a ≠ '\r' :=
      fun a ha => not_mem_cell text line x a hline hx (mem_cellTransform x a ha)
    exact ⟨fun hm => (key _ hm).1 rfl, fun hm => (key _ hm).2.1 rfl, fun hm => (key _ hm).2.2 rfl⟩
  · intro row hrow
    obtain ⟨line, hline, rfl⟩ := parseCsv_rows_mem text row hrow
    refine ⟨?_, line, hline, rfl, ?_, ?_⟩
    · simpa using split_ne_nil _ line
    · rw [List.length_map, length_split]
    · intro x _ hq
      rw [cellTransform_of_not_quoted x hq]
      exact ⟨rfl, noEdgeWhiteSpace_trim x⟩

/-! ## The leading byte-order mark -/

theorem toNat_bom : bom.toNat = 0xFEFF := by decide

theorem eq_bom_of_toNat (c : Char) (h : c.toNat = 0xFEFF) : c = bom := by
  have := Char.ofNat_toNat c
  rw [h] at this
  exact this.symm

theorem stripBOM_of_head (s : Str) (h : s.head? ≠ some bom) : stripBOM s = s := by
  cases s with
  | nil => rfl
  | cons c cs =>
    have hc : c.toNat ≠ 0xFEFF := fun e => h (by simp [eq_bom_of_toNat c e])
    simp [stripBOM, hc]

theorem stripBOM_bom (s : Str) : stripBOM (bom :: s) = s := by
  simp [stripBOM, toNat_bom]

theorem bom_ne_cr : bom ≠ '\r' := by decide

theorem normalizeLineEndings_bom (t : Str) :
    normalizeLineEndings (bom :: t) = bom :: normalizeLineEndings t := by
  unfold normalizeLineEndings
  cases t with
  | nil => simp [replaceCRLF, replaceCR, bom_ne_cr]
  | cons d cs =>
    rw [replaceCRLF, if_neg (fun hh => bom_ne_cr hh.1)]
    simp [replaceCR, bom_ne_cr]

theorem head?_normalizeLineEndings (t : Str) :
    (normalizeLineEndings t).head? = t.head?.map (fun c => if c = '\r' then '\n' else c) := by
  unfold normalizeLineEndings
  match t with
  | [] => rfl
  | [c] => simp [replaceCRLF, replaceCR]
  | c :: d :: cs =>
    rw [replaceCRLF]
    split_ifs with h
    · simp [replaceCR, h.1]
    · simp [replaceCR]

theorem prepare_bom (t : Str) (h : t.head? ≠ some bom) :
    prepare (bom :: t) = prepare t := by
  rw [prepare_eq, prepare_eq, normalizeLineEndings_bom, stripBOM_bom]
  symm
  apply stripBOM_of_head
  rw [head?_normalizeLineEndings]
  intro e
  cases t with
  | nil => simp at e
  | cons c cs =>
    simp only [List.head?_cons, Option.map_some', Option.some.injEq] at e h
    split_ifs at e with hc
    · exact absurd e (by decide)
    · exact h (by rw [e])

theorem mem_of_mem_table_header (text : Str) (hs : List Str) (h : Str) (a : Char)
    (hhs : (parseCsv text).headers = some hs) (hh : h ∈ hs) (ha : a ∈ h) : a ∈ prepare text := by
  obtain ⟨line, hline, x, hx, rfl⟩ := parseCsv_headers_mem text hs h hhs hh
  exact (mem_line_of_mem_prepare text line a hline
    (mem_of_mem_piece _ a line x hx (mem_of_mem_trim a x ha))).1

theorem mem_of_mem_table_cell (text : Str) (row : List Str) (cell : Str) (a : Char)
    (hrow : row ∈ (parseCsv text).rows) (hcell : cell ∈ row) (ha : a ∈ cell) :
    a ∈ prepare text := by
  obtain ⟨line, hline, rfl⟩ := parseCsv_rows_mem text row hrow
  obtain ⟨x, hx, rfl⟩ := List.mem_map.1 hcell
  exact (mem_line_of_mem_prepare text line a hline
    (mem_of_mem_piece _ a line x hx (mem_cellTransform x a ha))).1

/-- C17: for a text that does not itself begin with the byte-order mark, putting
one in front changes nothing: the prepared text, the detected delimiter and the
table are the same; and when the text holds no other byte-order mark, none
appears in a header or a cell. -/
theorem parseCsv_leading_bom (t : Str) (h : t.head? ≠ some bom) :
    prepare (bom :: t) = prepare t ∧
    detectDelimiter (prepare (bom :: t)) = detectDelimiter (prepare t) ∧
    parseCsv (bom :: t) = parseCsv t ∧
    (bom ∉ t →
      (∀ hs, (parseCsv (bom :: t)).headers = some hs → ∀ hd ∈ hs, bom ∉ hd) ∧
      (∀ row ∈ (parseCsv (bom :: t)).rows, ∀ cell ∈ row, bom ∉ cell)) := by
  have hp := prepare_bom t h
  refine ⟨hp, by rw [hp], parseCsv_congr _ _ hp, ?_⟩
  intro hb
  have hnot : bom ∉ prepare (bom :: t) := by
    rw [hp]
    intro hm
    rcases (mem_prepare bom t hm).1 with e | e
    · exact hb e
    · exact absurd e (by decide)
  exact ⟨fun hs hhs hd hhd hm => hnot (mem_of_mem_table_header _ hs hd bom hhs hhd hm),
    fun row hrow cell hcell hm => hnot (mem_of_mem_table_cell _ row cell bom hrow hcell hm)⟩

theorem parseCsv_leading_bom_witness :
    "item,sales\n\"x\",2".toList.head? ≠ some bom ∧
    parseCsv (bom :: "item,sales\n\"x\",2".toList) =
      ⟨some ["item".toList, "sales".toList], [["x".toList, "2".toList]]⟩ ∧
    parseCsv (bom :: "item,sales\n\"x\",2".toList) = parseCsv "item,sales\n\"x\",2".toList :=
  ⟨by decide, by decide,
    (parseCsv_leading_bom "item,sales\n\"x\",2".toList (by decide)).2.2.1⟩

/-! ## Rows and lines -/

/-- C13 (as amended): the rows of `parseCsv` are, in line order, one row per
non-blank line after the header line (per every non-blank line when the headers
are absent), each the line split on the detected delimiter with the cell
transform applied; the row count is the non-blank line count minus one when
headers are present and there is a non-blank line, the non-blank line count
when headers are absent, and zero when there is no non-blank line; the sample
text gives the stated headers and rows. -/
theorem parseCsv_rows_per_line (text : Str) :
    (parseCsv text).rows =
      (((split '\n' (prepare text)).filter nonBlank).drop
        (if (parseCsv text).headers.isSome then 1 else 0)).map
        (fun line => (split (detectDelimiter (prepare text)) line).map cellTransform) ∧
    ((split '\n' (prepare text)).filter nonBlank ≠ [] →
      (parseCsv text).headers.isSome = true →
      ((parseCsv text).rows.length : Int) =
        (((split '\n' (prepare text)).filter nonBlank).length : Int) - 1) ∧
    ((parseCsv text).headers = none →
      (parseCsv text).rows.length = ((split '\n' (prepare text)).filter nonBlank).length) ∧
    ((split '\n' (prepare text)).filter nonBlank = [] → (parseCsv text).rows = []) ∧
    parseCsv "item,sales\nApples,120.50\nBananas,85.75\n".toList =
      ⟨some ["item".toList, "sales".toList],
        [["Apples".toList, "120.50".toList], ["Bananas".toList, "85.75".toList]]⟩ := by
  refine ⟨parseCsv_rows_eq text, ?_, ?_, ?_, by decide⟩
  · intro hne hsome
    rw [parseCsv_rows_eq, List.length_map, List.length_drop, hsome]
    have : 0 < ((split '\n' (prepare text)).filter nonBlank).length :=
      List.length_pos.2 hne
    simp only [if_true]
    omega
  · intro hnone
    rw [parseCsv_rows_eq, List.length_map, List.length_drop, hnone]
    simp
  · intro hnil
    rw [parseCsv_nil text hnil]

/-- C13 (counterexample): the text of one blank and a line break has no non-blank
line; its headers are present (the empty list) and it has no rows, so the row
count `0` is not the non-blank line count `0` minus one. -/
theorem parseCsv_row_count_counterexample :
    ((split '\n' (prepare " \n".toList)).filter nonBlank).length = 0 ∧
    (parseCsv " \n".toList).headers = some [] ∧
    (parseCsv " \n".toList).headers.isSome = true ∧
    (parseCsv " \n".toList).rows.length = 0 ∧
    ((parseCsv " \n".toList).rows.length : Int) ≠
      (((split '\n' (prepare " \n".toList)).filter nonBlank).length : Int) - 1 := by
  decide

/-! ## What the data-URL pattern matches -/

theorem eq_append_drop_of_isPrefixOf (l s : Str) (h : l.isPrefixOf s = true) :
    s = l ++ s.drop l.length := by
  obtain ⟨t, rfl⟩ := List.isPrefixOf_iff_prefix.1 h
  simp

theorem matchPayload_some (s p : Str) (h : matchPayload s = some p) :
    s = ',' :: p ∧ ∀ c ∈ p, isLineTerminator c = false := by
  cases s with
  | nil => simp [matchPayload] at h
  | cons c cs =>
    simp only [matchPayload] at h
    split_ifs at h with hc
    simp only [Option.some.injEq] at h
    subst h
    refine ⟨by rw [hc.1], ?_⟩
    have := hc.2
    simpa using this

theorem matchTail_some (s p : Str) (b : Bool) (h : matchTail s = some (b, p)) :
    s = (if b then ";base64".toList else []) ++ ',' :: p := by
  unfold matchTail at h
  by_cases hpre : ";base64".toList.isPrefixOf s = true
  · simp only [hpre, if_true] at h
    cases hv : matchPayload (s.drop 7) with
    | some q =>
      rw [hv] at h
      simp only [Option.some.injEq, Prod.mk.injEq] at h
      obtain ⟨hb, hq⟩ := h
      subst hb; subst hq
      have h1 := eq_append_drop_of_isPrefixOf _ s hpre
      have h2 := (matchPayload_some _ _ hv).1
      have hlen : ";base64".toList.length = 7 := rfl
      rw [hlen, h2] at h1
      simpa using h1
    | none =>
      rw [hv] at h
      cases hw : matchPayload s with
      | some q =>
        rw [hw] at h
        simp only [Option.some.injEq, Prod.mk.injEq] at h
        obtain ⟨hb, hq⟩ := h
        subst hb; subst hq
        simpa using (matchPayload_some _ _ hw).1
      | none => rw [hw] at h; simp at h
  · simp only [hpre, if_false, Bool.false_eq_true] at h
    cases hw : matchPayload s with
    | some q =>
      rw [hw] at h
      simp only [Option.some.injEq, Prod.mk.injEq] at h
      obtain ⟨hb, hq⟩ := h
      subst hb; subst hq
      simpa using (matchPayload_some _ _ hw).1
    | none => rw [hw] at h; simp at h

theorem matchClassStar_some (s m p : Str) (b : Bool) (h : matchClassStar s = some (m, b, p)) :
    s = m ++ ((if b then ";base64".toList else []) ++ ',' :: p) ∧ ';' ∉ m := by
  induction s generalizing m with
  | nil =>
    simp only [matchClassStar, Option.map_eq_some'] at h
    obtain ⟨⟨b', p'⟩, hbp, heq⟩ := h
    simp only [Prod.mk.injEq] at heq
    obtain ⟨rfl, rfl, rfl⟩ := heq
    exact ⟨by simpa using matchTail_some _ _ _ hbp, by simp⟩
  | cons c cs ih =>
    rw [matchClassStar] at h
    by_cases hc : c ≠ ';'
    · simp only [if_pos hc] at h
      cases hlong : matchClassStar cs with
      | some r =>
        obtain ⟨m', b', p'⟩ := r
        rw [hlong] at h
        simp only [Option.some.injEq, Prod.mk.injEq] at h
        obtain ⟨rfl, rfl, rfl⟩ := h
        obtain ⟨h1, h2⟩ := ih m' hlong
        refine ⟨by rw [List.cons_append, ← h1], ?_⟩
        intro hm
        rcases List.mem_cons.1 hm with e | e
        · exact hc e.symm
        · exact h2 e
      | none =>
        rw [hlong] at h
        simp only [Option.map_eq_some'] at h
        obtain ⟨⟨b', p'⟩, hbp, heq⟩ := h
        simp only [Prod.mk.injEq] at heq
        obtain ⟨rfl, rfl, rfl⟩ := heq
        exact ⟨by simpa using matchTail_some _ _ _ hbp, by simp⟩
    · simp only [if_neg hc, Option.map_eq_some'] at h
      obtain ⟨⟨b', p'⟩, hbp, heq⟩ := h
      simp only [Prod.mk.injEq] at heq
      obtain ⟨rfl, rfl, rfl⟩ := heq
      exact ⟨by simpa using matchTail_some _ _ _ hbp, by simp⟩

theorem dataUrlMatch_some (url m p : Str) (b : Bool) (h : dataUrlMatch url = some (m, b, p)) :
    url = "data:".toList ++ m ++ (if b then ";base64".toList else []) ++ ',' :: p ∧
    m ≠ [] ∧ ';' ∉ m := by
  unfold dataUrlMatch at h
  by_cases hpre : "data:".toList.isPrefixOf url = true
  · simp only [hpre, if_true] at h
    have hurl := eq_append_drop_of_isPrefixOf _ url hpre
    have hlen : "data:".toList.length = 5 := rfl
    rw [hlen] at hurl
    cases hd : url.drop 5 with
    | nil => rw [hd] at h; simp at h
    | cons c cs =>
      rw [hd] at h
      simp only at h
      by_cases hc : c ≠ ';'
      · simp only [if_pos hc] at h
        cases hstar : matchClassStar cs with
        | none => rw [hstar] at h; simp at h
        | some r =>
          obtain ⟨m', b', p'⟩ := r
          rw [hstar] at h
          simp only [Option.some.injEq, Prod.mk.injEq] at h
          obtain ⟨rfl, rfl, rfl⟩ := h
          obtain ⟨h1, h2⟩ := matchClassStar_some cs m' p' b' hstar
          refine ⟨?_, by simp, ?_⟩
          · rw [hurl, hd, h1]
            simp
          · intro hm
            rcases List.mem_cons.1 hm with e | e
            · exact hc e.symm
            · exact h2 e
      · simp only [if_neg hc] at h
        simp at h
  · simp only [hpre, if_false, Bool.false_eq_true] at h
    simp at h

/-- C12: a string that does not begin with `data:`, or that begins with it but
is not `data:`, a non-empty part free of `;`, an optional `;base64`, a comma
and a rest, makes `parseDataUrl` return `null`; so does `not-a-data-url`. -/
theorem parseDataUrl_no_match (url : Str)
    (h : "data:".toList.isPrefixOf url = false ∨
      ¬ ∃ m p : Str, m ≠ [] ∧ ';' ∉ m ∧
        (url = "data:".toList ++ m ++ ",".toList ++ p ∨
         url = "data:".toList ++ m ++ ";base64,".toList ++ p)) :
    parseDataUrl url = none ∧ parseDataUrl "not-a-data-url".toList = none := by
  refine ⟨?_, by decide⟩
  rcases h with h | h
  · unfold parseDataUrl
    rw [h]
    rfl
  · cases hm : dataUrlMatch url with
    | none =>
      unfold parseDataUrl
      simp [hm]
    | some r =>
      obtain ⟨m, b, p⟩ := r
      obtain ⟨h1, h2, h3⟩ := dataUrlMatch_some url m p b hm
      exfalso
      apply h
      refine ⟨m, p, h2, h3, ?_⟩
      cases b with
      | false => left; rw [h1]; simp
      | true => right; rw [h1]; simp [markerComma_toList, marker_toList]

theorem parseDataUrl_no_match_witness :
    "data:".toList.isPrefixOf "not-a-data-url".toList = false ∧
    parseDataUrl "not-a-data-url".toList = none :=
  ⟨by decide, (parseDataUrl_no_match "not-a-data-url".toList (Or.inl (by decide))).1⟩


theorem parseDataUrl_of_no_comma (url : Str) (h : ',' ∉ url) : parseDataUrl url = none := by
  cases hm : dataUrlMatch url with
  | none =>
    unfold parseDataUrl
    simp [hm]
  | some r =>
    obtain ⟨m, b, p⟩ := r
    obtain ⟨h1, -, -⟩ := dataUrlMatch_some url m p b hm
    exact absurd (by rw [h1]; simp) h

/-! ## Percent-decoding -/

theorem readEscape_length (s rest : Str) (b : Nat) (h : readEscape s = some (b, rest)) :
    rest.length + 3 = s.length := by
  match s, h with
  | p :: x :: y :: r, h =>
    simp only [readEscape] at h
    split_ifs at h
    cases hx : hexVal x <;> cases hy : hexVal y <;> rw [hx, hy] at h <;>
      simp only [Option.some.injEq, Prod.mk.injEq, reduceCtorEq] at h
    obtain ⟨-, rfl⟩ := h
    simp

theorem readEscapes_length (n : Nat) (s rest : Str) (bs : List Nat)
    (h : readEscapes n s = some (bs, rest)) : rest.length ≤ s.length := by
  induction n generalizing s bs with
  | zero =>
    simp only [readEscapes, Option.some.injEq, Prod.mk.injEq] at h
    rw [h.2]
  | succ n ih =>
    rw [readEscapes] at h
    cases h1 : readEscape s with
    | none => rw [h1] at h; simp at h
    | some r1 =>
      obtain ⟨b, r⟩ := r1
      rw [h1] at h
      simp only at h
      cases h2 : readEscapes n r with
      | none => rw [h2] at h; simp at h
      | some r2 =>
        obtain ⟨bs', r'⟩ := r2
        rw [h2] at h
        simp only [Option.some.injEq, Prod.mk.injEq] at h
        obtain ⟨-, rfl⟩ := h
        have := ih r bs' h2
        have := readEscape_length s r b h1
        omega

theorem decodeLoop_fuel (f : Nat) :
    ∀ (g : Nat) (s : Str), s.length ≤ f → s.length ≤ g → decodeLoop f s = decodeLoop g s := by
  induction f with
  | zero =>
    intro g s hf _
    have : s = [] := List.length_eq_zero.1 (by omega)
    subst this
    cases g <;> rfl
  | succ f ih =>
    intro g s hf hg
    cases s with
    | nil => cases g <;> rfl
    | cons c cs =>
      cases g with
      | zero => simp at hg
      | succ g =>
        simp only [List.length_cons] at hf hg
        rw [decodeLoop, decodeLoop]
        by_cases hc : c ≠ '%'
        · rw [if_pos hc, if_pos hc, ih g cs (by omega) (by omega)]
        · rw [if_neg hc, if_neg hc]
          cases h1 : readEscape (c :: cs) with
          | none => rfl
          | some r1 =>
            obtain ⟨b, rest⟩ := r1
            have hl := readEscape_length _ _ _ h1
            simp only [List.length_cons] at hl
            simp only
            by_cases h0 : leadingOnes b = 0
            · rw [if_pos h0, if_pos h0, ih g rest (by omega) (by omega)]
            · rw [if_neg h0, if_neg h0]
              by_cases hbad : leadingOnes b = 1 ∨ 4 < leadingOnes b
              · rw [if_pos hbad, if_pos hbad]
              · rw [if_neg hbad, if_neg hbad]
                cases h2 : readEscapes (leadingOnes b - 1) rest with
                | none => rfl
                | some r2 =>
                  obtain ⟨bs, rest1⟩ := r2
                  have hl2 := readEscapes_length _ _ _ _ h2
                  simp only
                  cases utf8Octets (b :: bs) with
                  | none => rfl
                  | some ch =>
                    simp only
                    rw [ih g rest1 (by omega) (by omega)]

theorem decodeURIComponent_eq (s : Str) (g : Nat) (hg : s.length ≤ g) :
    decodeURIComponent s = decodeLoop g s :=
  decodeLoop_fuel s.length g s (Nat.le_refl _) hg

theorem decodeURIComponent_of_no_percent (s : Str) (h : '%' ∉ s) :
    decodeURIComponent s = some s := by
  unfold decodeURIComponent
  induction s with
  | nil => rfl
  | cons c cs ih =>
    have hc : c ≠ '%' := fun e => h (by simp [e])
    have hcs : '%' ∉ cs := fun e => h (List.mem_cons_of_mem _ e)
    simp only [List.length_cons]
    rw [decodeLoop, if_pos hc, ih hcs]
    rfl

theorem hexVal_percent : hexVal '%' = none := by decide

theorem readEscape_percent_bad (post : Str) (h : twoHexAhead post = false) :
    readEscape ('%' :: post) = none := by
  match post, h with
  | [], _ => rfl
  | [x], _ => rfl
  | x :: y :: r, h =>
    simp only [twoHexAhead, Bool.and_eq_false_imp, Option.isSome_iff_exists] at h
    simp only [readEscape, if_true]
    cases hx : hexVal x with
    | none => rfl
    | some a =>
      cases hy : hexVal y with
      | none => rfl
      | some b =>
        have := h ⟨a, hx⟩
        rw [hy] at this
        simp at this

theorem readEscape_split (pre post rest : Str) (b : Nat) (hbad : twoHexAhead post = false)
    (h : readEscape (pre ++ '%' :: post) = some (b, rest)) :
    ∃ pre1, rest = pre1 ++ '%' :: post := by
  match pre, h with
  | [], h =>
    rw [List.nil_append, readEscape_percent_bad post hbad] at h
    simp at h
  | [x], h =>
    simp only [List.cons_append, List.nil_append] at h
    cases post with
    | nil => simp [readEscape] at h
    | cons y r =>
      simp only [readEscape, hexVal_percent] at h
      split_ifs at h
  | [x, y], h =>
    simp only [List.cons_append, List.nil_append, readEscape, hexVal_percent] at h
    split_ifs at h
    cases hexVal y <;> simp at h
  | x :: y :: z :: pre1, h =>
    simp only [List.cons_append, readEscape] at h
    split_ifs at h
    cases hy : hexVal y <;> cases hz : hexVal z <;> rw [hy, hz] at h <;>
      simp only [Option.some.injEq, Prod.mk.injEq, reduceCtorEq] at h
    exact ⟨pre1, h.2.symm⟩

theorem readEscapes_split (n : Nat) (pre post rest : Str) (bs : List Nat)
    (hbad : twoHexAhead post = false)
    (h : readEscapes n (pre ++ '%' :: post) = some (bs, rest)) :
    ∃ pre1, rest = pre1 ++ '%' :: post := by
  induction n generalizing pre bs with
  | zero =>
    simp only [readEscapes, Option.some.injEq, Prod.mk.injEq] at h
    exact ⟨pre, h.2.symm⟩
  | succ n ih =>
    rw [readEscapes] at h
    cases h1 : readEscape (pre ++ '%' :: post) with
    | none => rw [h1] at h; simp at h
    | some r1 =>
      obtain ⟨b, r⟩ := r1
      rw [h1] at h
      simp only at h
      obtain ⟨pre1, rfl⟩ := readEscape_split pre post r b hbad h1
      cases h2 : readEscapes n (pre1 ++ '%' :: post) with
      | none => rw [h2] at h; simp at h
      | some r2 =>
        obtain ⟨bs1, r1⟩ := r2
        rw [h2] at h
        simp only [Option.some.injEq, Prod.mk.injEq] at h
        obtain ⟨-, rfl⟩ := h
        exact ih pre1 bs1 h2

theorem decodeLoop_bad_escape (post : Str) (hbad : twoHexAhead post = false) (fuel : Nat) :
    ∀ pre : Str, decodeLoop fuel (pre ++ '%' :: post) = none := by
  induction fuel with
  | zero =>
    intro pre
    cases pre <;> rfl
  | succ f ih =>
    intro pre
    cases pre with
    | nil =>
      rw [List.nil_append, decodeLoop, if_neg (by simp), readEscape_percent_bad post hbad]
    | cons c pre1 =>
      rw [List.cons_append, decodeLoop]
      by_cases hc : c ≠ '%'
      · rw [if_pos hc, ih pre1]; rfl
      · rw [if_neg hc]
        cases h1 : readEscape (c :: (pre1 ++ '%' :: post)) with
        | none => rfl
        | some r1 =>
          obtain ⟨b, rest⟩ := r1
          obtain ⟨pre2, rfl⟩ := readEscape_split (c :: pre1) post rest b hbad h1
          simp only
          by_cases h0 : leadingOnes b = 0
          · rw [if_pos h0, ih pre2]; rfl
          · rw [if_neg h0]
            by_cases hb : leadingOnes b = 1 ∨ 4 < leadingOnes b
            · rw [if_pos hb]
            · rw [if_neg hb]
              cases h2 : readEscapes (leadingOnes b - 1) (pre2 ++ '%' :: post) with
              | none => rfl
              | some r2 =>
                obtain ⟨bs, rest1⟩ := r2
                obtain ⟨pre3, rfl⟩ := readEscapes_split _ pre2 post rest1 bs hbad h2
                simp only
                cases utf8Octets (b :: bs) with
                | none => rfl
                | some ch =>
                  simp only
                  rw [ih pre3]; rfl

theorem decodeURIComponent_bad_escape (pre post : Str) (hbad : twoHexAhead post = false) :
    decodeURIComponent (pre ++ '%' :: post) = none :=
  decodeLoop_bad_escape post hbad _ pre

/-- What `parseDataUrl` does with the groups the pattern itself matched without
the `;base64` marker, group 1 being `m` and group 3 being `p` (the text after
the last comma the match could use): `isBase64` is false and the text is the
percent-decoding of `p` when that succeeds, `null` when it fails, as it does
when a `%` of `p` is not followed by two hexadecimal digits. -/
theorem parseDataUrl_percent_decoded (url m p : Str)
    (h : dataUrlMatch url = some (m, false, p)) :
    (∀ text, decodeURIComponent p = some text →
      parseDataUrl url = some ⟨m, false, text⟩) ∧
    (decodeURIComponent p = none → parseDataUrl url = none) ∧
    (∀ pre post, p = pre ++ '%' :: post → twoHexAhead post = false →
      parseDataUrl url = none) ∧
    ('%' ∉ p → parseDataUrl url = some ⟨m, false, p⟩) ∧
    parseDataUrl "data:text/plain,hello".toList =
      some ⟨"text/plain".toList, false, "hello".toList⟩ := by
  have hpre : "data:".toList.isPrefixOf url = true := by
    by_contra hn
    unfold dataUrlMatch at h
    rw [if_neg hn] at h
    simp at h
  have key : parseDataUrl url =
      match decodeURIComponent p with
      | none => none
      | some text => some ⟨m, false, text⟩ := by
    unfold parseDataUrl
    rw [hpre, h]
    rfl
  refine ⟨?_, ?_, ?_, ?_, by decide⟩
  · intro text ht
    rw [key, ht]
  · intro hn
    rw [key, hn]
  · intro pre post hp hbad
    rw [key, hp, decodeURIComponent_bad_escape pre post hbad]
  · intro hno
    rw [key, decodeURIComponent_of_no_percent p hno]

theorem parseDataUrl_percent_decoded_example :
    dataUrlMatch "data:text/csv,a%3Bb%E2%82%AC%0A1".toList =
      some ("text/csv".toList, false, "a%3Bb%E2%82%AC%0A1".toList) ∧
    decodeURIComponent "a%3Bb%E2%82%AC%0A1".toList = some "a;b€\n1".toList ∧
    parseDataUrl "data:text/csv,a%3Bb%E2%82%AC%0A1".toList =
      some ⟨"text/csv".toList, false, "a;b€\n1".toList⟩ :=
  ⟨by decide, by decide,
    (parseDataUrl_percent_decoded "data:text/csv,a%3Bb%E2%82%AC%0A1".toList "text/csv".toList
      "a%3Bb%E2%82%AC%0A1".toList (by decide)).1 _ (by decide)⟩


theorem decodeURIComponent_invalid_sequences :
    decodeURIComponent "%FF".toList = none ∧
    decodeURIComponent "%C3%28".toList = none ∧
    decodeURIComponent "%C0%80".toList = none ∧
    decodeURIComponent "%ED%A0%80".toList = none ∧
    decodeURIComponent "%E2%82".toList = none := by
  decide

theorem matchClassStar_of_no_comma (s : Str) (h : ',' ∉ s) : matchClassStar s = none := by
  cases hm : matchClassStar s with
  | none => rfl
  | some r =>
    obtain ⟨m, b, p⟩ := r
    have := (matchClassStar_some s m p b hm).1
    exact absurd (by rw [this]; simp) h

theorem matchTail_comma (p : Str) (hp : ∀ c ∈ p, isLineTerminator c = false) :
    matchTail (',' :: p) = some (false, p) := by
  have hall : p.all (fun x => !isLineTerminator x) = true := by
    simp only [List.all_eq_true, Bool.not_eq_true']
    exact hp
  simp [matchTail, marker_toList, matchPayload, List.isPrefixOf, hall]

theorem matchClassStar_plain (m p : Str) (hm : ';' ∉ m) (hp : ',' ∉ p)
    (hlt : ∀ c ∈ p, isLineTerminator c = false) :
    matchClassStar (m ++ ',' :: p) = some (m, false, p) := by
  induction m with
  | nil =>
    rw [List.nil_append, matchClassStar, if_pos (by decide), matchClassStar_of_no_comma p hp]
    simp only
    rw [matchTail_comma p hlt]
    rfl
  | cons c cs ih =>
    have hc : c ≠ ';' := fun e => hm (by simp [e])
    have hcs : ';' ∉ cs := fun e => hm (List.mem_cons_of_mem _ e)
    rw [List.cons_append, matchClassStar, if_pos hc, ih hcs]

theorem dataUrlMatch_plain (m p : Str) (hne : m ≠ []) (hm : ';' ∉ m) (hp : ',' ∉ p)
    (hlt : ∀ c ∈ p, isLineTerminator c = false) :
    dataUrlMatch ("data:".toList ++ m ++ ",".toList ++ p) = some (m, false, p) := by
  cases m with
  | nil => exact absurd rfl hne
  | cons c cs =>
    have hc : c ≠ ';' := fun e => hm (by simp [e])
    have hcs : ';' ∉ cs := fun e => hm (List.mem_cons_of_mem _ e)
    have hpre : "data:".toList.isPrefixOf ("data:".toList ++ (c :: cs) ++ ",".toList ++ p) = true := by
      rw [List.append_assoc, List.append_assoc]; exact isPrefixOf_dataUrl _
    have hdrop : ("data:".toList ++ (c :: cs) ++ ",".toList ++ p).drop 5 =
        c :: (cs ++ ',' :: p) := by
      simp [dataPrefix_toList]
    unfold dataUrlMatch
    rw [if_pos hpre, hdrop]
    simp only [if_pos hc, matchClassStar_plain cs p hcs hp hlt]

/-! ## The sales column -/

theorem findIndex_none (p : Str → Bool) (l : List Str) (h : ∀ x ∈ l, p x = false) :
    findIndex p l = none := by
  induction l with
  | nil => rfl
  | cons x xs ih =>
    rw [findIndex, h x (by simp), ih (fun y hy => h y (List.mem_cons_of_mem _ hy))]
    rfl

theorem findIndex_some_iff (p : Str → Bool) (l : List Str) (i : Nat) :
    findIndex p l = some i ↔
      (∃ x, l.get? i = some x ∧ p x = true) ∧
      ∀ j, j < i → ∀ y, l.get? j = some y → p y = false := by
  induction l generalizing i with
  | nil => simp [findIndex]
  | cons x xs ih =>
    rw [findIndex]
    by_cases hx : p x = true
    · rw [if_pos hx]
      constructor
      · intro h
        simp only [Option.some.injEq] at h
        subst h
        exact ⟨⟨x, rfl, hx⟩, fun j hj => absurd hj (Nat.not_lt_zero j)⟩
      · rintro ⟨-, hfirst⟩
        cases i with
        | zero => rfl
        | succ k =>
          have := hfirst 0 (Nat.succ_pos k) x rfl
          rw [hx] at this
          exact absurd this (by simp)
    · have hx' : p x = false := by simpa using hx
      rw [if_neg hx]
      cases i with
      | zero =>
        constructor
        · intro h
          cases hf : findIndex p xs <;> rw [hf] at h <;> simp at h
        · rintro ⟨⟨y, hy, hpy⟩, -⟩
          simp only [List.get?_cons_zero, Option.some.injEq] at hy
          subst hy
          rw [hx'] at hpy
          exact absurd hpy (by simp)
      | succ k =>
        have hmap : (findIndex p xs).map (· + 1) = some (k + 1) ↔ findIndex p xs = some k := by
          cases findIndex p xs <;> simp
        rw [hmap, ih k]
        constructor
        · rintro ⟨hex, hfirst⟩
          refine ⟨by simpa using hex, ?_⟩
          intro j hj y hy
          cases j with
          | zero =>
            simp only [List.get?_cons_zero, Option.some.injEq] at hy
            subst hy; exact hx'
          | succ j => exact hfirst j (by omega) y (by simpa using hy)
        · rintro ⟨hex, hfirst⟩
          refine ⟨by simpa using hex, ?_⟩
          intro j hj y hy
          exact hfirst (j + 1) (by omega) y (by simpa using hy)

theorem toLowerCase_sales : toLowerCase "sales".toList = "sales".toList := by decide

theorem equalsIgnoreCase_sales (h : Str) :
    equalsIgnoreCase h "sales".toList = decide (toLowerCase h = "sales".toList) := by
  unfold equalsIgnoreCase
  rw [toLowerCase_sales]

/-- C15: for a table whose headers are present, the column `init` uses is the
index of the first header equal to `sales` when letter case is ignored, and
the display is the total of that column; when no header matches, no total is
computed and the display is `Error`. -/
theorem display_with_headers (t : ParsedTable) (hs : List Str) (h : t.headers = some hs) :
    (∀ i, salesColumnIndex t.headers = some i ↔
      (∃ x, hs.get? i = some x ∧ equalsIgnoreCase x "sales".toList = true) ∧
      ∀ j, j < i → ∀ y, hs.get? j = some y → equalsIgnoreCase y "sales".toList = false) ∧
    (∀ i, salesColumnIndex t.headers = some i →
      display t = toFixed2 (totalSales t.rows i)) ∧
    ((∀ x ∈ hs, equalsIgnoreCase x "sales".toList = false) →
      salesColumnIndex t.headers = none ∧ display t = "Error".toList) := by
  have hfun : (fun x : Str => decide (toLowerCase x = "sales".toList)) =
      (fun x => equalsIgnoreCase x "sales".toList) := by
    funext x; exact (equalsIgnoreCase_sales x).symm
  have hidx : salesColumnIndex t.headers =
      findIndex (fun x => equalsIgnoreCase x "sales".toList) hs := by
    rw [h]
    show findIndex (fun x : Str => decide (toLowerCase x = "sales".toList)) hs = _
    rw [hfun]
  refine ⟨?_, ?_, ?_⟩
  · intro i
    rw [hidx]
    exact findIndex_some_iff _ hs i
  · intro i hi
    unfold display
    rw [hi]
  · intro hnone
    have hn : salesColumnIndex t.headers = none := by
      rw [hidx]; exact findIndex_none _ hs hnone
    refine ⟨hn, ?_⟩
    unfold display
    rw [hn]

set_option maxRecDepth 100000 in
theorem display_with_headers_witness :
    (⟨some ["Item".toList, "SaLeS".toList, "sales".toList],
      [["a".toList, "1.5".toList, "7".toList], ["b".toList, "x".toList, "7".toList],
       ["c".toList, "2".toList]]⟩ : ParsedTable).headers =
      some ["Item".toList, "SaLeS".toList, "sales".toList] ∧
    salesColumnIndex (some ["Item".toList, "SaLeS".toList, "sales".toList]) = some 1 ∧
    display ⟨some ["Item".toList, "SaLeS".toList, "sales".toList],
      [["a".toList, "1.5".toList, "7".toList], ["b".toList, "x".toList, "7".toList],
       ["c".toList, "2".toList]]⟩ = "3.50".toList ∧
    display ⟨some ["Item".toList, "SaLeS".toList, "sales".toList],
      [["a".toList, "1.5".toList, "7".toList], ["b".toList, "x".toList, "7".toList],
       ["c".toList, "2".toList]]⟩ =
      toFixed2 (totalSales [["a".toList, "1.5".toList, "7".toList],
        ["b".toList, "x".toList, "7".toList], ["c".toList, "2".toList]] 1) :=
  ⟨rfl, by decide, by decide,
    (display_with_headers ⟨some ["Item".toList, "SaLeS".toList, "sales".toList],
      [["a".toList, "1.5".toList, "7".toList], ["b".toList, "x".toList, "7".toList],
       ["c".toList, "2".toList]]⟩ ["Item".toList, "SaLeS".toList, "sales".toList] rfl).2.1 1
      (by decide)⟩

/-! ## A quoted header -/

theorem startsLiteral_quote (r : Str) : startsLiteral ('"' :: r) = false := by
  have h1 : ¬ ((('"' :: r).head? = some '+') ∨ (('"' :: r).head? = some '-')) := by
    simp
  unfold startsLiteral
  rw [if_neg h1]
  unfold startsUnsigned
  rw [infinity_toList]
  simp [List.isPrefixOf, isDigit]

theorem parseFloat_quote_isNaN (cell r : Str) (h : trim cell = '"' :: r) :
    (parseFloat cell).isNaN = true := by
  rw [← parseFloat_trim_isNaN, h, parseFloat_isNaN]
  have : trimStart ('"' :: r) = '"' :: r := by
    apply trimStart_of_head
    intro c cs hc
    simp only [List.cons.injEq] at hc
    rw [← hc.1]
    decide
  rw [this, startsLiteral_quote]
  rfl

set_option maxRecDepth 100000 in
/-- C20: when the first non-blank line has a cell that is, once trimmed, a name
in double quotes, the line is a header row and the header keeps the quote
characters (header cells are only trimmed); when moreover no cell of that line
is `sales` itself, ignoring letter case, the lookup in `init` finds no column
and the display is `Error`, as for the header `"item","sales"` over unquoted
numeric rows. -/
theorem quoted_header_not_found (text first : Str) (rest : List Str) (name : Str)
    (hl : (split '\n' (prepare text)).filter nonBlank = first :: rest)
    (hq : ∃ cell ∈ split (detectDelimiter (prepare text)) first,
      trim cell = '"' :: (name ++ ['"']))
    (hno : ∀ cell ∈ split (detectDelimiter (prepare text)) first,
      equalsIgnoreCase (trim cell) "sales".toList = false) :
    (parseCsv text).headers =
      some ((split (detectDelimiter (prepare text)) first).map trim) ∧
    (∃ hs, (parseCsv text).headers = some hs ∧ ('"' :: (name ++ ['"'])) ∈ hs) ∧
    equalsIgnoreCase ('"' :: (name ++ ['"'])) "sales".toList = false ∧
    salesColumnIndex (parseCsv text).headers = none ∧
    display (parseCsv text) = "Error".toList ∧
    parseCsv "\"item\",\"sales\"\nApples,120.50\nBananas,85.75\n".toList =
      ⟨some ["\"item\"".toList, "\"sales\"".toList],
        [["Apples".toList, "120.50".toList], ["Bananas".toList, "85.75".toList]]⟩ ∧
    display (parseCsv "\"item\",\"sales\"\nApples,120.50\nBananas,85.75\n".toList) =
      "Error".toList ∧
    display ⟨some ["item".toList, "sales".toList],
      [["Apples".toList, "120.50".toList], ["Bananas".toList, "85.75".toList]]⟩ =
      "206.25".toList := by
  obtain ⟨cell, hcell, htrim⟩ := hq
  have hany : (split (detectDelimiter (prepare text)) first).any
      (fun c => (parseFloat c).isNaN) = true :=
    List.any_eq_true.2 ⟨cell, hcell, parseFloat_quote_isNaN cell _ htrim⟩
  have hhead : (parseCsv text).headers =
      some ((split (detectDelimiter (prepare text)) first).map trim) := by
    rw [parseCsv_cons text first rest hl]
    simp only [hany, if_true]
  have hfun : (fun x : Str => decide (toLowerCase x = "sales".toList)) =
      (fun x => equalsIgnoreCase x "sales".toList) := by
    funext x; exact (equalsIgnoreCase_sales x).symm
  have hidx : salesColumnIndex (parseCsv text).headers = none := by
    rw [hhead]
    show findIndex (fun x : Str => decide (toLowerCase x = "sales".toList)) _ = none
    rw [hfun]
    apply findIndex_none
    intro x hx
    obtain ⟨c, hc, rfl⟩ := List.mem_map.1 hx
    exact hno c hc
  refine ⟨hhead, ⟨_, hhead, ?_⟩, ?_, hidx, ?_, by decide, by decide, by decide⟩
  · rw [← htrim]
    exact List.mem_map.2 ⟨cell, hcell, rfl⟩
  · rw [← htrim]
    exact hno cell hcell
  · unfold display
    rw [hidx]

set_option maxRecDepth 100000 in
theorem quoted_header_not_found_witness :
    (split '\n' (prepare "\"Item\" ; \"Sales\" \n1;2\n".toList)).filter nonBlank =
      "\"Item\" ; \"Sales\" ".toList :: ["1;2".toList] ∧
    (parseCsv "\"Item\" ; \"Sales\" \n1;2\n".toList).headers =
      some ["\"Item\"".toList, "\"Sales\"".toList] ∧
    display (parseCsv "\"Item\" ; \"Sales\" \n1;2\n".toList) = "Error".toList :=
  ⟨by decide, by decide,
    (quoted_header_not_found "\"Item\" ; \"Sales\" \n1;2\n".toList
      "\"Item\" ; \"Sales\" ".toList ["1;2".toList] "Sales".toList (by decide)
      ⟨" \"Sales\" ".toList, by decide, by decide⟩ (by decide)).2.2.2.2.1⟩

/-! ## The total of a column -/

theorem parseFloat_undefined : (parseFloat "undefined".toList).isNaN = true := by decide

theorem totalSales_step (idx : Nat) (row : List Str) (total : Num) :
    (if !(parseFloat (row.getD idx "undefined".toList)).isNaN
      then total.add (parseFloat (row.getD idx "undefined".toList)) else total) =
    match parsedAt idx row with
    | none => total
    | some v => total.add v := by
  unfold parsedAt
  cases hg : row.get? idx with
  | none =>
    have : row.getD idx "undefined".toList = "undefined".toList := by
      rw [List.getD_eq_getElem?_getD, ← List.get?_eq_getElem?, hg]; rfl
    rw [this, parseFloat_undefined]
    rfl
  | some cell =>
    have : row.getD idx "undefined".toList = cell := by
      rw [List.getD_eq_getElem?_getD, ← List.get?_eq_getElem?, hg]; rfl
    rw [this]
    cases hn : (parseFloat cell).isNaN <;> simp [hn]

theorem totalSales_foldl (idx : Nat) (rows : List (List Str)) (acc : Num) :
    rows.foldl
      (fun total row =>
        if !(parseFloat (row.getD idx "undefined".toList)).isNaN
          then total.add (parseFloat (row.getD idx "undefined".toList)) else total) acc =
    (rows.filterMap (parsedAt idx)).foldl Num.add acc := by
  induction rows generalizing acc with
  | nil => rfl
  | cons row rest ih =>
    rw [List.foldl_cons, totalSales_step, ih, List.filterMap_cons]
    cases parsedAt idx row <;> rfl

theorem totalSales_eq_sumOf (rows : List (List Str)) (idx : Nat) :
    totalSales rows idx = sumOf (rows.filterMap (parsedAt idx)) := by
  unfold totalSales sumOf
  exact totalSales_foldl idx rows _

theorem parsedAt_eq_none_iff (idx : Nat) (row : List Str) :
    parsedAt idx row = none ↔
      row.length ≤ idx ∨ ∃ cell, row.get? idx = some cell ∧ (parseFloat cell).isNaN = true := by
  unfold parsedAt
  cases hg : row.get? idx with
  | none =>
    simp only [true_iff]
    left
    exact List.get?_eq_none.1 hg
  | some cell =>
    have hlt : ¬ row.length ≤ idx := by
      intro hle
      rw [List.get?_eq_none.2 hle] at hg
      simp at hg
    cases hn : (parseFloat cell).isNaN <;> simp [hlt]

/-! ## Two digits after the point -/

theorem isDigit_digitChar : ∀ k, k < 10 → isDigit (Nat.digitChar k) = true := by decide

theorem isDigit_toDigitsCore (fuel : Nat) :
    ∀ (n : Nat) (ds : Str), (∀ c ∈ ds, isDigit c = true) →
      ∀ c ∈ Nat.toDigitsCore 10 fuel n ds, isDigit c = true := by
  induction fuel with
  | zero =>
    intro n ds hds c hc
    simp only [Nat.toDigitsCore] at hc
    exact hds c hc
  | succ f ih =>
    intro n ds hds c hc
    have hd : ∀ x ∈ Nat.digitChar (n % 10) :: ds, isDigit x = true := by
      intro x hx
      rcases List.mem_cons.1 hx with e | e
      · rw [e]; exact isDigit_digitChar _ (Nat.mod_lt _ (by decide))
      · exact hds x e
    simp only [Nat.toDigitsCore] at hc
    split_ifs at hc
    · exact hd c hc
    · exact ih _ _ hd c hc

theorem isDigit_decimal (n : Nat) : ∀ c ∈ decimal n, isDigit c = true :=
  isDigit_toDigitsCore _ n [] (by simp)

theorem twoDecimals_of_digits (sign ds : Str) (hs : sign = [] ∨ sign = ['-'])
    (hds : ∀ c ∈ ds, isDigit c = true) :
    twoDecimals (sign ++
      (List.replicate (3 - ds.length) '0' ++ ds).take
        ((List.replicate (3 - ds.length) '0' ++ ds).length - 2) ++ ['.'] ++
      (List.replicate (3 - ds.length) '0' ++ ds).drop
        ((List.replicate (3 - ds.length) '0' ++ ds).length - 2)) := by
  have hlen : 3 ≤ (List.replicate (3 - ds.length) '0' ++ ds).length := by
    simp only [List.length_append, List.length_replicate]
    omega
  have hpad : ∀ c ∈ List.replicate (3 - ds.length) '0' ++ ds, isDigit c = true := by
    intro c hc
    rcases List.mem_append.1 hc with e | e
    · rw [(List.mem_replicate.1 e).2]; decide
    · exact hds c e
  generalize List.replicate (3 - ds.length) '0' ++ ds = padded at hlen hpad
  refine ⟨sign, padded.take (padded.length - 2), padded.drop (padded.length - 2), ?_, hs, ?_, ?_, ?_⟩
  · simp
  · intro e
    have := congrArg List.length e
    simp only [List.length_take, List.length_nil] at this
    omega
  · simp only [List.length_drop]
    omega
  · intro c hc
    rcases List.mem_append.1 hc with e | e
    · exact hpad c (List.mem_of_mem_take e)
    · exact hpad c (List.mem_of_mem_drop e)

theorem toFixed2_twoDecimals (x : Num) (h : finiteBelow x (10 ^ 21)) :
    twoDecimals (toFixed2 x) := by
  cases x with
  | nan => exact absurd h (by simp [finiteBelow])
  | inf neg => exact absurd h (by simp [finiteBelow])
  | fin neg m e =>
    have hsmall : ¬ (10 ^ 21 * (scaleDiv m 1 (-e)).2 ≤ (scaleDiv m 1 (-e)).1) := by
      unfold finiteBelow at h
      simp only at h
      unfold scaleDiv
      by_cases he : 0 ≤ e
      · rw [if_pos he] at h
        by_cases he0 : e = 0
        · subst he0
          simp at h ⊢
          omega
        · have hneg : ¬ (0 ≤ -e) := by omega
          rw [if_neg hneg]
          have : (- -e).toNat = e.toNat := by rw [neg_neg]
          simp only [this]
          omega
      · rw [if_neg he] at h
        have hpos : 0 ≤ -e := by omega
        rw [if_pos hpos]
        simp only [Nat.one_mul]
        omega
    simp only [toFixed2, if_neg hsmall]
    apply twoDecimals_of_digits
    · cases neg <;> by_cases hm : m = 0 <;> simp [hm]
    · exact isDigit_decimal _

theorem not_twoDecimals_of_no_point (s : Str) (h : '.' ∉ s) : ¬ twoDecimals s := by
  rintro ⟨sign, ip, fp, hs, -⟩
  exact h (by rw [hs]; simp)

/-- C14 (as amended): for a table whose headers are absent, `init` uses the
column index 1 and displays `toFixed(2)` of the sum, taken in row order, of the
numeric values of exactly those rows whose cell at index 1 parses as a number;
a row whose cell at index 1 does not parse, or that has no such cell,
contributes nothing; and when that sum is finite and below `10^21` in
magnitude the display has exactly two digits after the decimal point. -/
theorem display_without_headers (t : ParsedTable) (h : t.headers = none) :
    salesColumnIndex t.headers = some 1 ∧
    display t = toFixed2 (sumOf (t.rows.filterMap (parsedAt 1))) ∧
    (∀ row : List Str, parsedAt 1 row = none ↔
      row.length ≤ 1 ∨ ∃ cell, row.get? 1 = some cell ∧ (parseFloat cell).isNaN = true) ∧
    (∀ (row : List Str) (cell : Str), row.get? 1 = some cell →
      (parseFloat cell).isNaN = false → parsedAt 1 row = some (parseFloat cell)) ∧
    (finiteBelow (sumOf (t.rows.filterMap (parsedAt 1))) (10 ^ 21) →
      twoDecimals (display t)) := by
  have hidx : salesColumnIndex t.headers = some 1 := by rw [h]; rfl
  have hdisp : display t = toFixed2 (sumOf (t.rows.filterMap (parsedAt 1))) := by
    unfold display
    rw [hidx]
    simp only
    rw [totalSales_eq_sumOf]
  refine ⟨hidx, hdisp, parsedAt_eq_none_iff 1, ?_, ?_⟩
  · intro row cell hc hn
    unfold parsedAt
    rw [hc]
    simp [hn]
  · intro hfin
    rw [hdisp]
    exact toFixed2_twoDecimals _ hfin

set_option maxRecDepth 100000 in
theorem display_without_headers_witness :
    (⟨none, [["a".toList, "1.5".toList], ["b".toList, "x".toList], ["c".toList],
      ["d".toList, "2.25".toList]]⟩ : ParsedTable).headers = none ∧
    [["a".toList, "1.5".toList], ["b".toList, "x".toList], ["c".toList],
      ["d".toList, "2.25".toList]].filterMap (parsedAt 1) =
      [parseFloat "1.5".toList, parseFloat "2.25".toList] ∧
    display ⟨none, [["a".toList, "1.5".toList], ["b".toList, "x".toList], ["c".toList],
      ["d".toList, "2.25".toList]]⟩ = "3.75".toList ∧
    display ⟨none, [["a".toList, "1.5".toList], ["b".toList, "x".toList], ["c".toList],
      ["d".toList, "2.25".toList]]⟩ =
      toFixed2 (sumOf ([["a".toList, "1.5".toList], ["b".toList, "x".toList], ["c".toList],
        ["d".toList, "2.25".toList]].filterMap (parsedAt 1))) :=
  ⟨rfl, by decide, by decide,
    (display_without_headers ⟨none, [["a".toList, "1.5".toList], ["b".toList, "x".toList],
      ["c".toList], ["d".toList, "2.25".toList]]⟩ rfl).2.1⟩

set_option maxRecDepth 100000 in
/-- C14 (counterexample): the text `1,1e21` has an all-numeric first line, so its
headers are absent and its single row has the cell `1e21` at index 1; the
display is `1e+21`, which has no decimal point; and for `1,Infinity` it is
`Infinity`. -/
theorem display_large_total_counterexample :
    parseCsv "1,1e21".toList = ⟨none, [["1".toList, "1e21".toList]]⟩ ∧
    display (parseCsv "1,1e21".toList) = "1e+21".toList ∧
    ¬ twoDecimals (display (parseCsv "1,1e21".toList)) ∧
    parseCsv "1,Infinity".toList = ⟨none, [["1".toList, "Infinity".toList]]⟩ ∧
    display (parseCsv "1,Infinity".toList) = "Infinity".toList :=
  ⟨by decide, by decide, not_twoDecimals_of_no_point _ (by decide), by decide, by decide⟩

/-! ## Payloads `atob` accepts and rejects -/

theorem base64Values_eq_none_iff (s : Str) :
    base64Values s = none ↔ ∃ c ∈ s, base64Value c = none := by
  constructor
  · intro h
    induction s with
    | nil => simp [base64Values] at h
    | cons x xs ih =>
      cases hx : base64Value x with
      | none => exact ⟨x, by simp, hx⟩
      | some v =>
        cases hxs : base64Values xs with
        | none =>
          obtain ⟨c, hc, hv⟩ := ih hxs
          exact ⟨c, List.mem_cons_of_mem _ hc, hv⟩
        | some vs =>
          rw [base64Values, hx, hxs] at h
          simp at h
  · rintro ⟨c, hc, hv⟩
    exact base64Values_none_of_mem c s hc hv

theorem atob_eq (data : Str) :
    atob data =
      if (base64Body data).length % 4 = 1 then none
      else
        match base64Values (base64Body data) with
        | none => none
        | some vs => some ((sextetsToBytes vs).map Char.ofNat) := rfl

theorem atob_eq_none_iff (data : Str) : atob data = none ↔ atobRejects data := by
  rw [atob_eq]
  unfold atobRejects
  by_cases h1 : (base64Body data).length % 4 = 1
  · simp [h1]
  · rw [if_neg h1, ← base64Values_eq_none_iff]
    cases base64Values (base64Body data) <;> simp [h1]

theorem stripPadding_length (s : Str) :
    (stripPadding s).length = s.length ∨ (stripPadding s).length + 1 = s.length ∨
      (stripPadding s).length + 2 = s.length := by
  unfold stripPadding
  have hlen : s.reverse.length = s.length := List.length_reverse s
  cases hr : s.reverse with
  | nil => left; rfl
  | cons a t =>
    rw [hr] at hlen
    cases t with
    | nil =>
      simp only
      split_ifs
      · right; left
        simp only [List.length_cons, List.length_nil] at hlen ⊢
        omega
      · left; rfl
    | cons b rest =>
      simp only
      simp only [List.length_cons] at hlen
      split_ifs
      · right; right
        simp only [List.length_reverse]
        omega
      · right; left
        simp only [List.length_reverse, List.length_cons]
        omega
      · left; rfl

theorem isAsciiWhitespace_of_base64 (c : Char) (h : base64Value c ≠ none ∨ c = '=') :
    isAsciiWhitespace c = false := by
  rcases h with h | h
  · by_contra hws
    have hws' : isAsciiWhitespace c = true := by simpa using hws
    apply h
    unfold isAsciiWhitespace at hws'
    unfold base64Value
    simp only [Bool.or_eq_true, decide_eq_true_eq] at hws'
    have h1 : ¬ (65 ≤ c.toNat ∧ c.toNat ≤ 90) := by omega
    have h2 : ¬ (97 ≤ c.toNat ∧ c.toNat ≤ 122) := by omega
    have h3 : ¬ (48 ≤ c.toNat ∧ c.toNat ≤ 57) := by omega
    have h4 : ¬ (c.toNat = 43) := by omega
    have h5 : ¬ (c.toNat = 47) := by omega
    simp only [h1, h2, h3, h4, h5, if_false]
  · rw [h]; decide

theorem atob_accepts_wellFormed (data : Str) (h : wellFormedBase64 data = true) :
    ¬ atobRejects data := by
  unfold wellFormedBase64 at h
  simp only [Bool.and_eq_true, beq_iff_eq, List.all_eq_true] at h
  obtain ⟨⟨hlen, hall⟩, -⟩ := h
  have hchar : ∀ c ∈ data, isAsciiWhitespace c = false := by
    intro c hc
    apply isAsciiWhitespace_of_base64
    by_cases he : c = '='
    · right; exact he
    · left
      have := hall c (mem_stripPadding c data hc he)
      intro hn
      rw [hn] at this
      simp at this
  have hfilter : data.filter (fun c => !isAsciiWhitespace c) = data := by
    rw [List.filter_eq_self]
    intro c hc
    simp [hchar c hc]
  have hbody : base64Body data = stripPadding data := by
    unfold base64Body
    rw [hfilter, if_pos hlen]
  unfold atobRejects
  rw [hbody]
  rintro (h1 | ⟨c, hc, hv⟩)
  · rcases stripPadding_length data with e | e | e <;> omega
  · have := hall c hc
    rw [hv] at this
    simp at this

/-- C10 (as amended): a data URL `data:<mime>;base64,<payload>`, with a non-empty
mime part free of `;`, makes `parseDataUrl` return `null` exactly when the
payload holds a line terminator or `atob` rejects it, that is when, white space
and closing `=` removed, its length is 1 modulo 4 or it holds a character
outside the alphabet; a payload `atob` rejects is never well-formed standard
base64. -/
theorem parseDataUrl_base64_null_iff (m p : Str) (hne : m ≠ []) (hm : ';' ∉ m) :
    (parseDataUrl ("data:".toList ++ m ++ ";base64,".toList ++ p) = none ↔
      atobRejects p ∨ ∃ c ∈ p, isLineTerminator c = true) ∧
    (atobRejects p → parseDataUrl ("data:".toList ++ m ++ ";base64,".toList ++ p) = none) ∧
    (atobRejects p → wellFormedBase64 p = false) := by
  have hpre : "data:".toList.isPrefixOf ("data:".toList ++ m ++ ";base64,".toList ++ p) = true := by
    rw [List.append_assoc, List.append_assoc]; exact isPrefixOf_dataUrl _
  have key : parseDataUrl ("data:".toList ++ m ++ ";base64,".toList ++ p) = none ↔
      atobRejects p ∨ ∃ c ∈ p, isLineTerminator c = true := by
    unfold parseDataUrl
    rw [hpre, dataUrlMatch_marker m p hne hm, ← atob_eq_none_iff]
    by_cases hp : p.all (fun x => !isLineTerminator x) = true
    · have hno : ¬ ∃ c ∈ p, isLineTerminator c = true := by
        rintro ⟨c, hc, hl⟩
        have := List.all_eq_true.1 hp c hc
        rw [hl] at this
        simp at this
      cases ha : atob p <;> simp [hp, hno, ha]
    · have hex : ∃ c ∈ p, isLineTerminator c = true := by
        simpa using hp
      simp [hp, hex]
  refine ⟨key, fun h => key.2 (Or.inl h), ?_⟩
  intro h
  by_contra hw
  exact atob_accepts_wellFormed p (by simpa using hw) h

theorem parseDataUrl_base64_null_iff_witness :
    atob "a!b".toList = none ∧ wellFormedBase64 "a!b".toList = false ∧
    atob "YWJjZ".toList = none ∧
    parseDataUrl ("data:".toList ++ "text/csv".toList ++ ";base64,".toList ++ "a!b".toList) = none ∧
    (parseDataUrl ("data:".toList ++ "text/csv".toList ++ ";base64,".toList ++ "a!b".toList) =
        none ↔
      atobRejects "a!b".toList ∨ ∃ c ∈ "a!b".toList, isLineTerminator c = true) :=
  ⟨by decide, by decide, by decide, by decide,
    (parseDataUrl_base64_null_iff "text/csv".toList "a!b".toList (by decide) (by decide)).1⟩

/-- C10 (counterexample): the payloads `YQ` (padding missing), `Y Q = =` (blanks
inside) and `YR==` (unused bits not zero) are not well-formed standard base64,
yet `atob` decodes each to `a` and `parseDataUrl` returns a payload, not
`null`. -/
theorem parseDataUrl_unpadded_counterexample :
    wellFormedBase64 "YQ".toList = false ∧
    atob "YQ".toList = some "a".toList ∧
    parseDataUrl "data:text/csv;base64,YQ".toList =
      some ⟨"text/csv".toList, true, "a".toList⟩ ∧
    parseDataUrl "data:text/csv;base64,YQ".toList ≠ none ∧
    wellFormedBase64 "Y Q = =".toList = false ∧
    parseDataUrl "data:text/csv;base64,Y Q = =".toList =
      some ⟨"text/csv".toList, true, "a".toList⟩ ∧
    wellFormedBase64 "YR==".toList = false ∧
    parseDataUrl "data:text/csv;base64,YR==".toList =
      some ⟨"text/csv".toList, true, "a".toList⟩ ∧
    wellFormedBase64 "YQ==".toList = true := by
  decide

/-! ## The payload of a URL without the marker -/

theorem parseDataUrl_plain (m p : Str) (hne : m ≠ []) (hm : ';' ∉ m) (hp : ',' ∉ p)
    (hlt : ∀ c ∈ p, isLineTerminator c = false) :
    parseDataUrl ("data:".toList ++ m ++ ",".toList ++ p) =
      match decodeURIComponent p with
      | none => none
      | some text => some ⟨m, false, text⟩ := by
  have hpre : "data:".toList.isPrefixOf ("data:".toList ++ m ++ ",".toList ++ p) = true := by
    rw [List.append_assoc, List.append_assoc]; exact isPrefixOf_dataUrl _
  unfold parseDataUrl
  rw [hpre, dataUrlMatch_plain m p hne hm hp hlt]
  rfl

/-- C11 (the code at the failing input): in `data:text/plain,%zz,ok` the payload
`%zz,ok` has a malformed percent escape, so `decodeURIComponent` of it throws;
`parseDataUrl` cuts at the last comma instead and returns mime
`text/plain,%zz` with text `ok`, not `null`; and for the payload `a%2Cb,c`,
which decodes to `a,b,c`, it returns the text `c`. -/
theorem parseDataUrl_percent_last_comma :
    decodeURIComponent "%zz,ok".toList = none ∧
    parseDataUrl ("data:".toList ++ "text/plain".toList ++ ",".toList ++ "%zz,ok".toList) =
      some ⟨"text/plain,%zz".toList, false, "ok".toList⟩ ∧
    decodeURIComponent "a%2Cb,c".toList = some "a,b,c".toList ∧
    parseDataUrl ("data:".toList ++ "text/plain".toList ++ ",".toList ++ "a%2Cb,c".toList) =
      some ⟨"text/plain,a%2Cb".toList, false, "c".toList⟩ ∧
    parseDataUrl "data:text/plain,hello".toList =
      some ⟨"text/plain".toList, false, "hello".toList⟩ := by
  decide

end SumOfSales
